import Mathlib

/-!
Verification of the trophy mesh ingestion and topology-cleaning pipeline
(src/models/mesh.go: mesh data model, cleanup stages, STL loader).

Numeric model: the Go code computes over IEEE-754 float64 (with float32
payloads in the binary format). This development embeds all scalar values as
exact rationals. Comparisons that the source performs on square roots
(vector length, normalized dot products) are rendered by the equivalent
square-free comparisons on squared quantities, noted at each definition;
these rewritings are exact over the real numbers. Unit normalization of a
normal vector has no exact rational form; since no verified claim reads a
normal value, normalization is modelled as keeping the accumulated direction
vector (zero stays zero, matching the source for zero vectors).
-/

set_option maxHeartbeats 4000000
set_option maxRecDepth 100000

namespace Trophy

/-- Rational 3-vector. Modelled from the spec: the repository file defining
math3d.Vec3 is not present under src (only Vec2 and Vec4 are); the component
operations below follow the spec (cross products, dot products, bounding-box
min and max) and the uniform style of the sibling file math3d/vec2.go. -/
structure Vec3 where
  x : ℚ
  y : ℚ
  z : ℚ
deriving DecidableEq

namespace Vec3

def zero : Vec3 := ⟨0, 0, 0⟩

def add (a b : Vec3) : Vec3 := ⟨a.x + b.x, a.y + b.y, a.z + b.z⟩

def sub (a b : Vec3) : Vec3 := ⟨a.x - b.x, a.y - b.y, a.z - b.z⟩

def scale (a : Vec3) (s : ℚ) : Vec3 := ⟨a.x * s, a.y * s, a.z * s⟩

def dot (a b : Vec3) : ℚ := a.x * b.x + a.y * b.y + a.z * b.z

def cross (a b : Vec3) : Vec3 :=
  ⟨a.y * b.z - a.z * b.y, a.z * b.x - a.x * b.z, a.x * b.y - a.y * b.x⟩

/-- Squared euclidean length; the source computes Len with a square root,
comparisons against it are modelled on this exact square. -/
def lenSq (a : Vec3) : ℚ := a.x * a.x + a.y * a.y + a.z * a.z

def minV (a b : Vec3) : Vec3 := ⟨min a.x b.x, min a.y b.y, min a.z b.z⟩

def maxV (a b : Vec3) : Vec3 := ⟨max a.x b.x, max a.y b.y, max a.z b.z⟩

/-- Unit normalization divides by a real square root, which has no exact
rational value. No verified claim depends on the value of a stored normal,
so the model keeps the accumulated direction unchanged; the zero vector maps
to zero exactly as the source Normalize does. -/
def normalizeDir (a : Vec3) : Vec3 := if a.lenSq = 0 then zero else a

end Vec3

/-- Vertex record: position, normal, uv (MeshVertex in mesh.go). -/
structure MeshVertex where
  position : Vec3
  normal : Vec3
  uv : ℚ × ℚ
deriving DecidableEq

def defaultVertex : MeshVertex := ⟨Vec3.zero, Vec3.zero, (0, 0)⟩

/-- Triangle face: three vertex indices (Go int, hence ℤ) and a material
index, -1 meaning no material (Face in mesh.go). -/
structure Face where
  v0 : ℤ
  v1 : ℤ
  v2 : ℤ
  material : ℤ
deriving DecidableEq

/-- Mesh: name, vertices, faces, bounding box (Mesh in mesh.go; the
materials list is outside every claim and is omitted). -/
structure Mesh where
  name : String
  vertices : List MeshVertex
  faces : List Face
  boundsMin : Vec3
  boundsMax : Vec3
deriving DecidableEq

/-- NewMesh: empty mesh with zero bounds. -/
def newMesh (name : String) : Mesh :=
  ⟨name, [], [], Vec3.zero, Vec3.zero⟩

/-- Position of vertex index i. Go indexes the slice directly and panics when
the index is out of range; the model is total with a default, and every
statement that evaluates positions carries the index-validity hypothesis. -/
def Mesh.posAt (m : Mesh) (i : ℤ) : Vec3 :=
  (m.vertices.getD i.toNat defaultVertex).position

/-- CalculateBounds: fold min and max over the vertices, no-op when empty. -/
def Mesh.calculateBounds (m : Mesh) : Mesh :=
  match m.vertices with
  | [] => m
  | v :: rest =>
      { m with
        boundsMin := rest.foldl (fun acc w => acc.minV w.position) v.position
        boundsMax := rest.foldl (fun acc w => acc.maxV w.position) v.position }

/-- Index validity, invariant I1: each of the three indices of each face is
in range of the vertex list. -/
def Face.validIn (f : Face) (n : ℕ) : Prop :=
  (0 ≤ f.v0 ∧ f.v0 < n) ∧ (0 ≤ f.v1 ∧ f.v1 < n) ∧ (0 ≤ f.v2 ∧ f.v2 < n)

instance (f : Face) (n : ℕ) : Decidable (f.validIn n) := by
  unfold Face.validIn; infer_instance

def Mesh.valid (m : Mesh) : Prop :=
  ∀ f ∈ m.faces, f.validIn m.vertices.length

instance (m : Mesh) : Decidable m.valid := by
  unfold Mesh.valid; exact List.decidableBAll _ _

/-- faceKey from mesh.go: sort the three indices with the three-swap
network, producing a canonical key independent of winding. -/
def faceKey (v0 v1 v2 : ℤ) : ℤ × ℤ × ℤ :=
  let p1 : ℤ × ℤ := if v0 > v1 then (v1, v0) else (v0, v1)
  let p2 : ℤ × ℤ := if p1.2 > v2 then (v2, p1.2) else (p1.2, v2)
  let p3 : ℤ × ℤ := if p1.1 > p2.1 then (p2.1, p1.1) else (p1.1, p2.1)
  (p3.1, p3.2, p2.2)

def Face.key (f : Face) : ℤ × ℤ × ℤ := faceKey f.v0 f.v1 f.v2

/-- Kept-face loop of DeduplicateFaces: keep a face when its key was not
seen before, recording seen keys. -/
def dedupGo (seen : List (ℤ × ℤ × ℤ)) : List Face → List Face
  | [] => []
  | f :: rest =>
      if f.key ∈ seen then dedupGo seen rest
      else f :: dedupGo (f.key :: seen) rest

/-- DeduplicateFaces: drop all but the first face per canonical key.
Returns the new mesh and the number of faces removed. The early return of
the source for an empty face list produces the same result. -/
def Mesh.deduplicateFaces (m : Mesh) : Mesh × ℕ :=
  let kept := dedupGo [] m.faces
  ({ m with faces := kept }, m.faces.length - kept.length)

/-- Unnormalized face normal: cross product of the two edge vectors, the
quantity the source derives normals and areas from. -/
def Mesh.faceCross (m : Mesh) (f : Face) : Vec3 :=
  let p0 := m.posAt f.v0
  let p1 := m.posAt f.v1
  let p2 := m.posAt f.v2
  (p1.sub p0).cross (p2.sub p0)

/-- Keep test of RemoveDegenerateFaces. The source drops a face when two
indices coincide or area = cross.Len * 0.5 is at most 1e-10; over the reals
Len * (1/2) > 1e-10 is equivalent to lenSq > (2e-10)^2 = 4/10^20, which is
the exact square-free form used here. -/
def degKeep (m : Mesh) (f : Face) : Bool :=
  if f.v0 = f.v1 ∨ f.v1 = f.v2 ∨ f.v0 = f.v2 then false
  else decide ((m.faceCross f).lenSq > 4 / 10 ^ 20)

/-- RemoveDegenerateFaces: filter by degKeep, report removed count. -/
def Mesh.removeDegenerateFaces (m : Mesh) : Mesh × ℕ :=
  let kept := m.faces.filter (degKeep m)
  ({ m with faces := kept }, m.faces.length - kept.length)

/-- Opposite-normal test of RemoveInternalFaces on the two unnormalized
cross products. The source normalizes both and tests dot < -0.99; over the
reals that is equivalent to dot c1 c2 < 0 together with
(dot c1 c2)^2 * 10000 > 9801 * lenSq c1 * lenSq c2 (note 0.99^2 = 9801/10000),
including the zero-vector case, where Normalize returns zero and the test
fails on both sides. -/
def opposed (c1 c2 : Vec3) : Bool :=
  decide (c1.dot c2 < 0 ∧ (c1.dot c2) ^ 2 * 10000 > 9801 * c1.lenSq * c2.lenSq)

/-- Inner loop of the pair marking: first index after the current face, not
yet marked, whose normal is opposite to c. -/
def findOpp (c : Vec3) : List (ℕ × Vec3) → List ℕ → Option ℕ
  | [], _ => none
  | (j, cj) :: rest, marked =>
      if j ∈ marked then findOpp c rest marked
      else if opposed c cj then some j
      else findOpp c rest marked

/-- Outer loop of the pair marking inside one key group, in face order:
skip already-marked faces, otherwise mark the face together with the first
later unmarked opposite face. -/
def markGroup : List (ℕ × Vec3) → List ℕ → List ℕ
  | [], marked => marked
  | (i, c) :: rest, marked =>
      if i ∈ marked then markGroup rest marked
      else
        match findOpp c rest marked with
        | some j => markGroup rest (i :: j :: marked)
        | none => markGroup rest marked

/-- Faces of the mesh enumerated with their positional index. -/
def Mesh.enumFaces (m : Mesh) : List (ℕ × Face) := m.faces.enum

/-- Group of one canonical key: the enumerated faces of that key paired
with their unnormalized cross products, in face order, exactly the order the
source appends them into its per-key slice. -/
def Mesh.groupOf (m : Mesh) (k : ℤ × ℤ × ℤ) : List (ℕ × Vec3) :=
  (m.enumFaces.filter (fun p => p.2.key = k)).map (fun p => (p.1, m.faceCross p.2))

/-- RemoveInternalFaces: mark opposing pairs group by group and drop the
marked faces. The source iterates the groups of a Go map whose order is
unspecified; the marking of one group only inspects indices of that same
group (keys partition the face indices), so the union of the per-group
markings is order independent and is modelled by iterating the distinct
keys in first-occurrence order. -/
def Mesh.removeInternalFaces (m : Mesh) : Mesh × ℕ :=
  let keys := (m.faces.map Face.key).dedup
  let marked := keys.flatMap (fun k => markGroup (m.groupOf k) [])
  let kept := (m.enumFaces.filter (fun p => p.1 ∉ marked)).map (fun p => p.2)
  ({ m with faces := kept }, m.faces.length - kept.length)

/-- Referenced test of RemoveUnreferencedVertices: some face carries vertex
index i. -/
def refd (faces : List Face) (i : ℕ) : Bool :=
  faces.any (fun f => f.v0 = (i : ℤ) || f.v1 = (i : ℤ) || f.v2 = (i : ℤ))

/-- Compacted position of referenced vertex i: the number of referenced
vertices before it, exactly the value the source stores in newIndex. -/
def newIdx (faces : List Face) (i : ℕ) : ℕ :=
  ((List.range i).filter (refd faces)).length

/-- Remapping of one face to the compacted index space. -/
def remapFace (faces : List Face) (f : Face) : Face :=
  { f with
    v0 := (newIdx faces f.v0.toNat : ℤ)
    v1 := (newIdx faces f.v1.toNat : ℤ)
    v2 := (newIdx faces f.v2.toNat : ℤ) }

/-- RemoveUnreferencedVertices: early return on an empty face or vertex
list (as in the source), otherwise keep the referenced vertices in order and
remap every face index to its compacted position. -/
def Mesh.removeUnreferencedVertices (m : Mesh) : Mesh :=
  if m.faces = [] ∨ m.vertices = [] then m
  else
    let newVertices :=
      ((List.range m.vertices.length).filter (refd m.faces)).map
        (fun i => m.vertices.getD i defaultVertex)
    { m with vertices := newVertices, faces := m.faces.map (remapFace m.faces) }

/-- CleanMesh: the four stages in order; only the first three report
removed-face counts. -/
def Mesh.cleanMesh (m : Mesh) : Mesh × ℕ :=
  let d := m.removeDegenerateFaces
  let i := d.1.removeInternalFaces
  let u := i.1.deduplicateFaces
  (u.1.removeUnreferencedVertices, d.2 + i.2 + u.2)

/-- CalculateSmoothNormals: reset every normal, accumulate the unnormalized
cross product of each face into its three vertices, then normalize each
vertex once (normalization modelled by normalizeDir, see above). Only normal
fields change; no claim reads them, but the loaders call this step. -/
def addNormalAt (vs : List MeshVertex) (i : ℤ) (n : Vec3) : List MeshVertex :=
  match vs.getD i.toNat defaultVertex with
  | v => vs.set i.toNat { v with normal := v.normal.add n }

def Mesh.calculateSmoothNormals (m : Mesh) : Mesh :=
  let reset := m.vertices.map (fun v => { v with normal := Vec3.zero })
  let acc := m.faces.foldl (fun vs f =>
    let c := Mesh.faceCross { m with vertices := vs } f
    addNormalAt (addNormalAt (addNormalAt vs f.v0 c) f.v1 c) f.v2 c) reset
  { m with vertices := acc.map (fun v => { v with normal := v.normal.normalizeDir }) }

/-! ### STL loader (second half of src/models/mesh.go)

Byte buffers are modelled as lists of naturals; each entry models one byte
and is read modulo 256. -/

def byteAt (data : List ℕ) (i : ℕ) : ℕ := data.getD i 0 % 256

/-- Little-endian unsigned 32-bit read at offset i. -/
def leU32 (data : List ℕ) (i : ℕ) : ℕ :=
  byteAt data i + byteAt data (i + 1) * 2 ^ 8 +
    byteAt data (i + 2) * 2 ^ 16 + byteAt data (i + 3) * 2 ^ 24

/-- Decodes IEEE-754 binary32 bits into an exact rational (readFloat32LE
followed by the promotion to float64, which is exact). Exponent 255 encodes
infinities and NaN, which have no rational value; they are mapped to 0 here
and no verified claim exercises them. -/
def float32ToRat (bits : ℕ) : ℚ :=
  let sign : ℚ := if bits / 2 ^ 31 % 2 = 1 then -1 else 1
  let e : ℕ := bits / 2 ^ 23 % 256
  let frac : ℕ := bits % 2 ^ 23
  if e = 0 then sign * (frac : ℚ) / 2 ^ 149
  else if e = 255 then 0
  else if e ≤ 150 then sign * ((2 ^ 23 + frac : ℕ) : ℚ) / 2 ^ (150 - e)
  else sign * ((2 ^ 23 + frac : ℕ) : ℚ) * 2 ^ (e - 150)

def readF32 (data : List ℕ) (i : ℕ) : ℚ := float32ToRat (leU32 data i)

def readVec3 (data : List ℕ) (i : ℕ) : Vec3 :=
  ⟨readF32 data i, readF32 data (i + 4), readF32 data (i + 8)⟩

/-- Loader options (STLLoader struct). The field holding the clean-mesh
option is named cleanOpt to keep it apart from Mesh.cleanMesh. -/
structure STLLoader where
  smoothNormals : Bool
  noDedupe : Bool
  cleanOpt : Bool
  mergeTolerance : ℚ

def defaultLoader : STLLoader := ⟨false, false, false, 0⟩

/-- Quantized grid key (quantizedKey struct; int64 in Go, ℤ here). -/
structure QKey where
  x : ℤ
  y : ℤ
  z : ℤ
deriving DecidableEq

/-- Round half away from zero, the behavior of Go math.Round. -/
def roundAway (q : ℚ) : ℤ := if 0 ≤ q then ⌊q + 1 / 2⌋ else -⌊-q + 1 / 2⌋

/-- quantizePosition: substitute 1e-12 for a non-positive tolerance, scale
by the reciprocal, round each coordinate. -/
def quantizePosition (pos : Vec3) (tolerance : ℚ) : QKey :=
  let tol := if tolerance ≤ 0 then 1 / 10 ^ 12 else tolerance
  let scale := 1 / tol
  ⟨roundAway (pos.x * scale), roundAway (pos.y * scale), roundAway (pos.z * scale)⟩

/-- Association-list lookup modelling the Go vertex map; keys are inserted
at the end and never overwritten, so first-match lookup agrees with the map. -/
def lookupKey : List (QKey × ℕ) → QKey → Option ℕ
  | [], _ => none
  | (k, i) :: rest, q => if k = q then some i else lookupKey rest q

/-- Shared welding state of both decoders. The corners field is a ghost
record of every corner position processed together with the vertex index
assigned to it, in processing order; it feeds the welding theorems and has
no effect on the mesh. -/
structure WeldState where
  mesh : Mesh
  vertexMap : List (QKey × ℕ)
  corners : List (Vec3 × ℕ)
deriving DecidableEq

def initWeld (name : String) : WeldState := ⟨newMesh name, [], []⟩

/-- Accumulate a normal into vertex idx (Normal = Normal.Add(normal)). -/
def accumNormal (vs : List MeshVertex) (idx : ℕ) (n : Vec3) : List MeshVertex :=
  match vs.getD idx defaultVertex with
  | v => vs.set idx { v with normal := v.normal.add n }

/-- Vertex intake common to both decoders: with NoDedupe every corner gets a
fresh vertex; otherwise the quantized key either reuses an existing index
(accumulating the normal) or registers a fresh vertex under the key. -/
def weldVertex (l : STLLoader) (s : WeldState) (pos normal : Vec3) : WeldState × ℕ :=
  if l.noDedupe then
    let idx := s.mesh.vertices.length
    (⟨{ s.mesh with vertices := s.mesh.vertices ++ [⟨pos, normal, (0, 0)⟩] },
      s.vertexMap, s.corners ++ [(pos, idx)]⟩, idx)
  else
    let key := quantizePosition pos l.mergeTolerance
    match lookupKey s.vertexMap key with
    | some idx =>
        (⟨{ s.mesh with vertices := accumNormal s.mesh.vertices idx normal },
          s.vertexMap, s.corners ++ [(pos, idx)]⟩, idx)
    | none =>
        let idx := s.mesh.vertices.length
        (⟨{ s.mesh with vertices := s.mesh.vertices ++ [⟨pos, normal, (0, 0)⟩] },
          s.vertexMap ++ [(key, idx)], s.corners ++ [(pos, idx)]⟩, idx)

/-- Load errors carried by the Go error returns. -/
inductive LoadErr where
  | tooShort (got : ℕ)
  | truncated (expected actual : ℕ)
  | lineErr (line : ℕ) (msg : String)
deriving DecidableEq

/-- Result of a load. Go can also panic on an out-of-range slice read,
reachable in loadBinary only when the uint32 size check wraps around; that
outcome is the panicked constructor, distinct from a returned error. -/
inductive LoadResult where
  | err (e : LoadErr)
  | panicked
  | ok (m : Mesh)
deriving DecidableEq

/-- One binary record: declared normal, three welded corners, face appended
with the second and third index swapped (the winding reversal). -/
def binRecord (l : STLLoader) (data : List ℕ) (offset : ℕ) (s : WeldState) : WeldState :=
  let normal := readVec3 data offset
  let r0 := weldVertex l s (readVec3 data (offset + 12)) normal
  let r1 := weldVertex l r0.1 (readVec3 data (offset + 24)) normal
  let r2 := weldVertex l r1.1 (readVec3 data (offset + 36)) normal
  { r2.1 with mesh :=
      { r2.1.mesh with faces :=
          r2.1.mesh.faces ++ [⟨(r0.2 : ℤ), (r2.2 : ℤ), (r1.2 : ℤ), -1⟩] } }

/-- Triangle loop of loadBinary. The furthest byte a record reads is at
offset + 47 (the two attribute bytes are skipped unread), so Go panics on a
record exactly when offset + 48 exceeds the buffer length; that case yields
none. -/
def binLoop (l : STLLoader) (data : List ℕ) : ℕ → ℕ → WeldState → Option WeldState
  | 0, _, s => some s
  | n + 1, offset, s =>
      if offset + 48 ≤ data.length then
        binLoop l data n (offset + 50) (binRecord l data offset s)
      else none

/-- Shared epilogue of both decoders: normalize accumulated normals unless
NoDedupe, compute bounds, optional smooth normals, optional cleanup. -/
def finishMesh (l : STLLoader) (m : Mesh) : Mesh :=
  let m1 := if l.noDedupe then m
            else { m with vertices :=
                    m.vertices.map (fun v => { v with normal := v.normal.normalizeDir }) }
  let m2 := m1.calculateBounds
  let m3 := if l.smoothNormals then m2.calculateSmoothNormals else m2
  if l.cleanOpt then m3.cleanMesh.1 else m3

/-- Welding core of loadBinary: the state after the whole triangle loop. -/
def loadBinaryCore (l : STLLoader) (data : List ℕ) (name : String) : Option WeldState :=
  binLoop l data (leU32 data 80) 84 (initWeld name)

/-- loadBinary. The source computes expectedSize = 84 + triCount*50 and
compares uint32(len(data)) < expectedSize in uint32 arithmetic, hence both
sides are reduced modulo 2^32. -/
def loadBinary (l : STLLoader) (data : List ℕ) (name : String) : LoadResult :=
  if data.length < 84 then .err (.tooShort data.length)
  else
    let triCount := leU32 data 80
    let expectedSize := (84 + triCount * 50) % 2 ^ 32
    if data.length % 2 ^ 32 < expectedSize then
      .err (.truncated expectedSize data.length)
    else
      match loadBinaryCore l data name with
      | none => .panicked
      | some s => .ok (finishMesh l s.mesh)

/-- Leading-token test: pat begins the list. -/
def leadsWith : List ℕ → List ℕ → Bool
  | [], _ => true
  | _ :: _, [] => false
  | p :: ps, b :: bs => p = b && leadsWith ps bs

/-- Byte string solid. -/
def solidTok : List ℕ := [115, 111, 108, 105, 100]

/-- Cutset of the leading TrimLeft: space, tab, carriage return, newline. -/
def wsLeadByte (b : ℕ) : Bool :=
  b % 256 = 32 || b % 256 = 9 || b % 256 = 13 || b % 256 = 10

/-- isBinarySTL: buffers under 84 bytes are text; a buffer whose
whitespace-trimmed front starts with solid is binary exactly when the uint32
size formula matches the length (both modulo 2^32, as the source compares
uint32 values); everything else is binary. -/
def isBinarySTL (data : List ℕ) : Bool :=
  if data.length < 84 then false
  else
    let trimmed := data.dropWhile wsLeadByte
    if leadsWith solidTok (trimmed.map (· % 256)) then
      decide ((84 + leU32 data 80 * 50) % 2 ^ 32 = data.length % 2 ^ 32)
    else true

/-! ### ASCII decoder -/

/-- The ASCII whitespace bytes among the separators of strings.Fields and
TrimSpace (space, tab, newline, vertical tab, form feed, carriage return).
Go also treats multi-byte UTF-8 whitespace runes (U+0085, U+00A0, U+1680,
U+2000..U+200A, U+2028, U+2029, U+202F, U+205F, U+3000) as separators, and
strings.ToLower maps a few non-ASCII runes onto ASCII letters; the
byte-level model does not decode such sequences, so every statement whose
truth depends on exact field splitting restricts the input to ASCII bytes
(each byte below 128), where the model and Go agree byte for byte. -/
def isSpaceByte (b : ℕ) : Bool :=
  b = 32 || b = 9 || b = 10 || b = 11 || b = 12 || b = 13

/-- Whitespace-separated fields of a line (strings.Fields); the source also
applies TrimSpace first, which does not change the fields. Faithful to Go
exactly on lines of ASCII bytes; see isSpaceByte. -/
def fieldsAux : List ℕ → List ℕ → List (List ℕ)
  | [], cur => if cur = [] then [] else [cur.reverse]
  | b :: rest, cur =>
      if isSpaceByte b then
        if cur = [] then fieldsAux rest [] else cur.reverse :: fieldsAux rest []
      else fieldsAux rest (b :: cur)

/-- ASCII lowercase of one byte (strings.ToLower on ASCII input). -/
def lowerByte (b : ℕ) : ℕ := if 65 ≤ b ∧ b ≤ 90 then b + 32 else b

/-- Line splitting of bufio.Scanner with ScanLines: split on newline, no
final empty token after a trailing newline, one trailing carriage return
stripped per line. Bytes are reduced modulo 256 here once; every later
stage works on byte values. The scanner of the source can also fail on a
single line longer than 65536 bytes, which is not modelled; the concrete
inputs of this development stay far below that bound. -/
def splitNlAux : List ℕ → List ℕ → List (List ℕ)
  | [], cur => [cur.reverse]
  | b :: rest, cur =>
      if b = 10 then cur.reverse :: splitNlAux rest [] else splitNlAux rest (b :: cur)

def dropCR (l : List ℕ) : List ℕ := if l.getLast? = some 13 then l.dropLast else l

def linesOf (data : List ℕ) : List (List ℕ) :=
  match data with
  | [] => []
  | _ :: _ =>
      let ps := splitNlAux (data.map (· % 256)) []
      (if ps.getLast? = some [] then ps.dropLast else ps).map dropCR

def isDigit (b : ℕ) : Bool := 48 ≤ b && b ≤ 57

def digitsVal (l : List ℕ) : ℕ := l.foldl (fun a b => a * 10 + (b - 48)) 0

/-- Optional leading sign; returns whether the value is negated and the
remaining bytes. -/
def takeSign : List ℕ → Bool × List ℕ
  | 43 :: rest => (false, rest)
  | 45 :: rest => (true, rest)
  | l => (false, l)

/-- Decimal floating-point syntax of strconv.ParseFloat: optional sign,
digits with an optional fractional part (at least one digit overall),
optional decimal exponent. The value is exact here, where the source rounds
to the nearest float64; the source additionally accepts hexadecimal floats
and the words inf and nan, and rejects out-of-range magnitudes, none of
which are exercised by any claim. -/
def parseFloatQ (s : List ℕ) : Option ℚ :=
  let sgn := takeSign s
  let s1 := sgn.2
  let intPart := s1.takeWhile isDigit
  let s2 := s1.dropWhile isDigit
  let fracSplit : List ℕ × List ℕ :=
    match s2 with
    | 46 :: rest => (rest.takeWhile isDigit, rest.dropWhile isDigit)
    | _ => ([], s2)
  let fracPart := fracSplit.1
  let s3 := if s2.head? = some 46 then fracSplit.2 else s2
  if intPart = [] ∧ fracPart = [] then none
  else
    let mant : ℚ :=
      ((digitsVal intPart * 10 ^ fracPart.length + digitsVal fracPart : ℕ) : ℚ) /
        10 ^ fracPart.length
    let base : ℚ := if sgn.1 then -mant else mant
    match s3 with
    | [] => some base
    | c :: rest =>
        if c = 101 ∨ c = 69 then
          let esgn := takeSign rest
          let ed := esgn.2.takeWhile isDigit
          if ed = [] ∨ esgn.2.dropWhile isDigit ≠ [] then none
          else if esgn.1 then some (base / 10 ^ digitsVal ed)
          else some (base * 10 ^ digitsVal ed)
        else none

/-- Byte list rendered as a string (used for the mesh name). -/
def asString (bs : List ℕ) : String :=
  String.mk (bs.map (fun b => Char.ofNat (b % 256)))

def facetTok : List ℕ := [102, 97, 99, 101, 116]
def normalTok : List ℕ := [110, 111, 114, 109, 97, 108]
def outerTok : List ℕ := [111, 117, 116, 101, 114]
def loopTok : List ℕ := [108, 111, 111, 112]
def vertexTok : List ℕ := [118, 101, 114, 116, 101, 120]
def endloopTok : List ℕ := [101, 110, 100, 108, 111, 111, 112]
def endfacetTok : List ℕ := [101, 110, 100, 102, 97, 99, 101, 116]
def endsolidTok : List ℕ := [101, 110, 100, 115, 111, 108, 105, 100]

/-- State of the line-oriented text decoder. -/
structure AsciiState where
  weld : WeldState
  currentNormal : Vec3
  faceVerts : List ℕ
  inFacet : Bool
  inLoop : Bool

def initAscii (name : String) : AsciiState :=
  ⟨initWeld name, Vec3.zero, [], false, false⟩

/-- One line of loadASCII: the switch over the lowercased first field.
Unrecognized first fields and blank lines leave the state unchanged. -/
def asciiStep (l : STLLoader) (st : AsciiState) (lineNum : ℕ) (line : List ℕ) :
    Except LoadErr AsciiState :=
  match fieldsAux line [] with
  | [] => .ok st
  | f0 :: rest =>
      let t := f0.map lowerByte
      if t = solidTok then
        .ok { st with weld := { st.weld with mesh :=
          match rest with
          | [] => st.weld.mesh
          | n :: _ => { st.weld.mesh with name := asString n } } }
      else if t = facetTok then
        if rest.length ≥ 4 ∧ (rest.headD []).map lowerByte = normalTok then
          match parseFloatQ (rest.getD 1 []) with
          | none => .error (.lineErr lineNum "invalid normal x")
          | some nx =>
            match parseFloatQ (rest.getD 2 []) with
            | none => .error (.lineErr lineNum "invalid normal y")
            | some ny =>
              match parseFloatQ (rest.getD 3 []) with
              | none => .error (.lineErr lineNum "invalid normal z")
              | some nz =>
                .ok { st with
                        currentNormal := (Vec3.mk nx ny nz).normalizeDir
                        inFacet := true
                        faceVerts := [] }
        else .ok { st with inFacet := true, faceVerts := [] }
      else if t = outerTok then
        if rest.length ≥ 1 ∧ (rest.headD []).map lowerByte = loopTok then
          .ok { st with inLoop := true }
        else .ok st
      else if t = vertexTok then
        if ¬st.inFacet ∨ ¬st.inLoop then
          .error (.lineErr lineNum "vertex outside facet-loop")
        else if rest.length < 3 then
          .error (.lineErr lineNum "vertex needs x y z")
        else
          match parseFloatQ (rest.getD 0 []) with
          | none => .error (.lineErr lineNum "invalid vertex x")
          | some x =>
            match parseFloatQ (rest.getD 1 []) with
            | none => .error (.lineErr lineNum "invalid vertex y")
            | some y =>
              match parseFloatQ (rest.getD 2 []) with
              | none => .error (.lineErr lineNum "invalid vertex z")
              | some z =>
                let r := weldVertex l st.weld (Vec3.mk x y z) st.currentNormal
                .ok { st with weld := r.1, faceVerts := st.faceVerts ++ [r.2] }
      else if t = endloopTok then
        .ok { st with inLoop := false }
      else if t = endfacetTok then
        let st2 :=
          if st.faceVerts.length ≥ 3 then
            { st with weld := { st.weld with mesh :=
              { st.weld.mesh with faces := st.weld.mesh.faces ++
                [⟨(st.faceVerts.getD 0 0 : ℤ), (st.faceVerts.getD 2 0 : ℤ),
                  (st.faceVerts.getD 1 0 : ℤ), -1⟩] } } }
          else st
        .ok { st2 with inFacet := false, faceVerts := [] }
      else if t = endsolidTok then
        .ok st
      else .ok st

/-- Fold of asciiStep over the lines with 1-based line numbers. -/
def asciiRun (l : STLLoader) :
    List (List ℕ) → ℕ → AsciiState → Except LoadErr AsciiState
  | [], _, st => .ok st
  | line :: rest, n, st =>
      match asciiStep l st n line with
      | .error e => .error e
      | .ok st2 => asciiRun l rest (n + 1) st2

/-- Decoding core of loadASCII: the final machine state. -/
def loadASCIICore (l : STLLoader) (data : List ℕ) (name : String) :
    Except LoadErr AsciiState :=
  asciiRun l (linesOf data) 1 (initAscii name)

def loadASCII (l : STLLoader) (data : List ℕ) (name : String) : LoadResult :=
  match loadASCIICore l data name with
  | .error e => .err e
  | .ok st => .ok (finishMesh l st.weld.mesh)

/-- LoadBytes: sniff the format and dispatch. -/
def loadBytes (l : STLLoader) (data : List ℕ) (name : String) : LoadResult :=
  if isBinarySTL data then loadBinary l data name else loadASCII l data name

/-! ### Invariants and ghost predicates -/

/-- Every index stored in the vertex map is in range of the vertex list. -/
def mapBounded (s : WeldState) : Prop :=
  ∀ k i, lookupKey s.vertexMap k = some i → i < s.mesh.vertices.length

/-- Invariant carried through both decoders. -/
def weldInv (s : WeldState) : Prop := s.mesh.valid ∧ mapBounded s

/-- Invariant of the line machine: the welding invariant plus in-range
accumulated face indices. -/
def asciiInv (st : AsciiState) : Prop :=
  weldInv st.weld ∧ ∀ i ∈ st.faceVerts, i < st.weld.mesh.vertices.length

def cornerKeys (tol : ℚ) (cs : List (Vec3 × ℕ)) : List QKey :=
  cs.map (fun c => quantizePosition c.1 tol)

/-- Invariant of welded decoding: one vertex per distinct quantized key, and
the map sends every recorded corner to its assigned index. -/
structure WeldedInv (tol : ℚ) (s : WeldState) : Prop where
  len_eq : s.mesh.vertices.length = s.vertexMap.length
  keys_nodup : (s.vertexMap.map Prod.fst).Nodup
  mem_keys : ∀ k : QKey, (lookupKey s.vertexMap k).isSome ↔ k ∈ cornerKeys tol s.corners
  corner_lookup : ∀ pi ∈ s.corners,
    lookupKey s.vertexMap (quantizePosition pi.1 tol) = some pi.2

def defaultFace : Face := ⟨0, 0, 0, -1⟩

def dummyCorner : Vec3 × ℕ := (Vec3.zero, 0)

/-- Corner-to-face correspondence of the binary decoder: face j stores the
indices assigned to corners 3j, 3j+2, 3j+1 in that order. -/
def cornerFaceInv (s : WeldState) : Prop :=
  s.corners.length = 3 * s.mesh.faces.length ∧
  ∀ j, j < s.mesh.faces.length →
    (s.mesh.faces.getD j defaultFace).v0 = ((s.corners.getD (3 * j) dummyCorner).2 : ℤ) ∧
    (s.mesh.faces.getD j defaultFace).v1 = ((s.corners.getD (3 * j + 2) dummyCorner).2 : ℤ) ∧
    (s.mesh.faces.getD j defaultFace).v2 = ((s.corners.getD (3 * j + 1) dummyCorner).2 : ℤ)

/-- With NoDedupe one vertex is appended per corner. -/
def noDedupeLen (s : WeldState) : Prop := s.mesh.vertices.length = s.corners.length

/-- First fields the ASCII switch acts on; every other first field falls
into the default (ignore) branch. -/
def recognizedTok (t : List ℕ) : Bool :=
  t = solidTok || t = facetTok || t = outerTok || t = vertexTok ||
  t = endloopTok || t = endfacetTok || t = endsolidTok

/-! ### Concrete inputs used by witnesses and counterexamples -/

def strBytes (s : String) : List ℕ := s.data.map Char.toNat

def sceneVertex (p : Vec3) : MeshVertex := ⟨p, Vec3.zero, (0, 0)⟩

/-- Two coplanar triangles over vertices 0,1,2 with opposite winding plus
one unrelated triangle over vertices 3,4,5. -/
def mkScene (p0 p1 p2 q0 q1 q2 : Vec3) : Mesh :=
  ⟨"scene", [sceneVertex p0, sceneVertex p1, sceneVertex p2,
    sceneVertex q0, sceneVertex q1, sceneVertex q2],
   [⟨0, 1, 2, -1⟩, ⟨0, 2, 1, -1⟩, ⟨3, 4, 5, -1⟩], Vec3.zero, Vec3.zero⟩

def m7concrete : Mesh :=
  mkScene ⟨0, 0, 0⟩ ⟨1, 0, 0⟩ ⟨0, 1, 0⟩ ⟨5, 0, 0⟩ ⟨6, 0, 0⟩ ⟨5, 1, 0⟩

/-- Mesh with one vertex and no faces. -/
def m9concrete : Mesh := ⟨"m9", [defaultVertex], [], Vec3.zero, Vec3.zero⟩

/-- Mesh with two vertices of which only the second is referenced. -/
def m9bconcrete : Mesh :=
  ⟨"m9b", [sceneVertex ⟨7, 7, 7⟩, sceneVertex ⟨8, 8, 8⟩], [⟨1, 1, 1, -1⟩],
    Vec3.zero, Vec3.zero⟩

/-- A face whose cross product has magnitude 1.5e-10: above the claimed
1e-10 magnitude threshold, below the coded 2e-10 one. -/
def m6concrete : Mesh :=
  ⟨"m6", [sceneVertex ⟨0, 0, 0⟩, sceneVertex ⟨1, 0, 0⟩,
    sceneVertex ⟨0, 3 / (2 * 10 ^ 10), 0⟩], [⟨0, 1, 2, -1⟩], Vec3.zero, Vec3.zero⟩

/-- 134-byte buffer: solid prefix, declared count 2^31 + 1, whose uint32
size formula wraps to exactly 134. -/
def c4buf : List ℕ :=
  solidTok ++ List.replicate 75 0 ++ [1, 0, 0, 128] ++ List.replicate 50 0

/-- 141-byte binary buffer: count 1, one zero triangle, 7 trailing bytes. -/
def c5buf : List ℕ := List.replicate 80 0 ++ [1, 0, 0, 0] ++ List.replicate 57 0

/-- 134-byte binary buffer declaring 2 triangles but holding one. -/
def c5short : List ℕ := List.replicate 80 0 ++ [2, 0, 0, 0] ++ List.replicate 50 0

/-- Exact-size binary buffer with one zero triangle. -/
def binOne : List ℕ := List.replicate 80 0 ++ [1, 0, 0, 0] ++ List.replicate 50 0

def noDedupeLoader : STLLoader := ⟨false, true, false, 0⟩

/-- ASCII solid whose single facet lists four vertex directives. -/
def ascii4buf : List ℕ := strBytes
  "solid s
facet normal 0 0 1
outer loop
vertex 0 0 0
vertex 1 0 0
vertex 0 1 0
vertex 2 2 2
endloop
endfacet
endsolid
"

def c10buf : List ℕ := strBytes "vertex 1 2 3"

def c10unknown : List ℕ := strBytes "hello world
nothing here
"

/-- Vertex count of a successful load. -/
def loadedVCount (r : LoadResult) : Option ℕ :=
  match r with
  | .ok m => some m.vertices.length
  | _ => none

/-- Face count of a successful load. -/
def loadedFCount (r : LoadResult) : Option ℕ :=
  match r with
  | .ok m => some m.faces.length
  | _ => none

/-- Final welding state of the binary core on binOne, used by witnesses. -/
def wS : WeldState := (loadBinaryCore defaultLoader binOne "t").getD (initWeld "t")

/-! ### General list lemmas -/

theorem snd_mem_of_mem_enumFrom {α : Type} :
    ∀ {l : List α} {n : ℕ} {p : ℕ × α}, p ∈ List.enumFrom n l → p.2 ∈ l := by
  intro l
  induction l with
  | nil => intro n p h; cases h
  | cons a t ih =>
      intro n p h
      simp only [List.enumFrom] at h
      rcases List.mem_cons.1 h with h | h
      · subst h; exact List.mem_cons_self a t
      · exact List.mem_cons_of_mem a (ih h)

theorem enumFrom_filter_snd {α : Type} (q : α → Bool) :
    ∀ (l : List α) (n : ℕ),
      ((List.enumFrom n l).filter (fun p => q p.2)).map Prod.snd = l.filter q := by
  intro l
  induction l with
  | nil => intro n; rfl
  | cons a t ih =>
      intro n
      simp only [List.enumFrom, List.filter]
      cases h : q a <;> simp [ih]

theorem filter_key_len_le_one :
    ∀ {l : List Face}, (l.map Face.key).Nodup →
      ∀ k : ℤ × ℤ × ℤ, (l.filter (fun f => f.key = k)).length ≤ 1 := by
  intro l
  induction l with
  | nil => intro _ k; simp
  | cons f t ih =>
      intro hnd k
      rw [List.map_cons] at hnd
      rcases List.nodup_cons.1 hnd with ⟨hhead, htail⟩
      by_cases h : f.key = k
      · have hnil : t.filter (fun g => g.key = k) = [] := by
          apply List.filter_eq_nil_iff.2
          intro g hg
          simp only [decide_eq_true_eq]
          intro hgk
          exact hhead (by rw [h, ← hgk]; exact List.mem_map_of_mem Face.key hg)
        simp [List.filter_cons, h, hnil]
      · simpa [List.filter_cons, h] using ih htail k

/-! ### Stage lemmas: deduplication -/

theorem mem_dedupGo : ∀ {fs : List Face} {seen : List (ℤ × ℤ × ℤ)} {f : Face},
    f ∈ dedupGo seen fs → f ∈ fs := by
  intro fs
  induction fs with
  | nil => intro seen f h; cases h
  | cons g t ih =>
      intro seen f h
      unfold dedupGo at h
      by_cases hk : g.key ∈ seen
      · simp only [hk, if_pos] at h
        exact List.mem_cons_of_mem g (ih h)
      · simp only [hk, if_neg, not_false_iff] at h
        rcases List.mem_cons.1 h with h | h
        · exact h ▸ List.mem_cons_self g t
        · exact List.mem_cons_of_mem g (ih h)

theorem dedupGo_nodup : ∀ (fs : List Face) (seen : List (ℤ × ℤ × ℤ)),
    ((dedupGo seen fs).map Face.key).Nodup ∧
      ∀ k ∈ (dedupGo seen fs).map Face.key, k ∉ seen := by
  intro fs
  induction fs with
  | nil => intro seen; exact ⟨List.nodup_nil, by intro k h; cases h⟩
  | cons g t ih =>
      intro seen
      unfold dedupGo
      by_cases hk : g.key ∈ seen
      · simp only [hk, if_pos]
        exact ih seen
      · simp only [hk, if_neg, not_false_iff, List.map_cons]
        rcases ih (g.key :: seen) with ⟨hnd, hmem⟩
        refine ⟨List.nodup_cons.2 ⟨fun hc => ?_, hnd⟩, ?_⟩
        · exact hmem g.key hc (List.mem_cons_self _ _)
        · intro k hkm
          rcases List.mem_cons.1 hkm with h | h
          · exact h ▸ hk
          · exact fun hs => hmem k h (List.mem_cons_of_mem _ hs)

theorem dedupGo_eq_self : ∀ (fs : List Face) (seen : List (ℤ × ℤ × ℤ)),
    (fs.map Face.key).Nodup → (∀ f ∈ fs, f.key ∉ seen) → dedupGo seen fs = fs := by
  intro fs
  induction fs with
  | nil => intro seen _ _; rfl
  | cons g t ih =>
      intro seen hnd hdis
      unfold dedupGo
      have hk : g.key ∉ seen := hdis g (List.mem_cons_self g t)
      simp only [hk, if_neg, not_false_iff]
      congr 1
      refine ih (g.key :: seen) (List.nodup_cons.1 hnd).2 ?_
      intro f hf hc
      rcases List.mem_cons.1 hc with h | h
      · exact (List.nodup_cons.1 hnd).1 (h ▸ List.mem_map_of_mem Face.key hf)
      · exact hdis f (List.mem_cons_of_mem g hf) h

theorem deduplicateFaces_eq_of_nodup {m : Mesh} (h : (m.faces.map Face.key).Nodup) :
    m.deduplicateFaces = (m, 0) := by
  unfold Mesh.deduplicateFaces
  have he : dedupGo [] m.faces = m.faces :=
    dedupGo_eq_self m.faces [] h (fun f _ hc => by cases hc)
  rw [he]
  exact Prod.ext rfl (Nat.sub_self _)

/-! ### Stage lemmas: internal-face removal -/

theorem markGroup_short : ∀ (g : List (ℕ × Vec3)), g.length ≤ 1 → markGroup g [] = []
  | [], _ => rfl
  | [(i, c)], _ => rfl
  | (i, c) :: (j, d) :: t, h =>
      absurd h (by simp only [List.length_cons]; omega)

theorem groupOf_len {m : Mesh} (k : ℤ × ℤ × ℤ) :
    (m.groupOf k).length = (m.faces.filter (fun f => f.key = k)).length := by
  unfold Mesh.groupOf Mesh.enumFaces
  rw [List.length_map]
  have := congrArg List.length (enumFrom_filter_snd (fun f => decide (f.key = k)) m.faces 0)
  simpa [List.enum] using this

theorem removeInternalFaces_eq_of_nodup {m : Mesh}
    (h : (m.faces.map Face.key).Nodup) : m.removeInternalFaces = (m, 0) := by
  unfold Mesh.removeInternalFaces
  dsimp only
  have hmark : ∀ k, markGroup (m.groupOf k) [] = [] := by
    intro k
    refine markGroup_short _ ?_
    rw [groupOf_len]
    exact filter_key_len_le_one h k
  have hflat : ((m.faces.map Face.key).dedup.flatMap
      (fun k => markGroup (m.groupOf k) [])) = [] := by
    apply List.flatMap_eq_nil_iff.2
    intro k _
    exact hmark k
  rw [hflat]
  have hkept : (m.enumFaces.filter (fun p => p.1 ∉ ([] : List ℕ))).map
      (fun p => p.2) = m.faces := by
    have : (m.enumFaces.filter (fun p => p.1 ∉ ([] : List ℕ))) = m.enumFaces := by
      apply List.filter_eq_self.2
      intro p _
      simp
    rw [this]
    unfold Mesh.enumFaces
    exact List.enum_map_snd m.faces
  rw [hkept]
  refine Prod.ext ?_ (Nat.sub_self _)
  rfl

theorem mem_of_mem_internalKept {m : Mesh} {f : Face} {marked : List ℕ}
    (h : f ∈ (m.enumFaces.filter (fun p => p.1 ∉ marked)).map (fun p => p.2)) :
    f ∈ m.faces := by
  rcases List.mem_map.1 h with ⟨p, hp, hpf⟩
  have := snd_mem_of_mem_enumFrom (l := m.faces) (n := 0)
    (p := p) (by simpa [Mesh.enumFaces, List.enum] using (List.mem_filter.1 hp).1)
  rw [hpf] at this
  exact this

/-! ### Validity preservation through the filtering stages -/

theorem removeDegenerateFaces_vertices (m : Mesh) :
    m.removeDegenerateFaces.1.vertices = m.vertices := rfl

theorem removeInternalFaces_vertices (m : Mesh) :
    m.removeInternalFaces.1.vertices = m.vertices := rfl

theorem deduplicateFaces_vertices (m : Mesh) :
    m.deduplicateFaces.1.vertices = m.vertices := rfl

theorem removeDegenerateFaces_faces_subset {m : Mesh} {f : Face}
    (h : f ∈ m.removeDegenerateFaces.1.faces) : f ∈ m.faces :=
  (List.mem_filter.1 h).1

theorem removeInternalFaces_faces_subset {m : Mesh} {f : Face}
    (h : f ∈ m.removeInternalFaces.1.faces) : f ∈ m.faces :=
  mem_of_mem_internalKept h

theorem deduplicateFaces_faces_subset {m : Mesh} {f : Face}
    (h : f ∈ m.deduplicateFaces.1.faces) : f ∈ m.faces :=
  mem_dedupGo h

theorem removeDegenerateFaces_valid {m : Mesh} (h : m.valid) :
    m.removeDegenerateFaces.1.valid := by
  intro f hf
  exact h f (removeDegenerateFaces_faces_subset hf)

theorem removeInternalFaces_valid {m : Mesh} (h : m.valid) :
    m.removeInternalFaces.1.valid := by
  intro f hf
  exact h f (removeInternalFaces_faces_subset hf)

theorem deduplicateFaces_valid {m : Mesh} (h : m.valid) :
    m.deduplicateFaces.1.valid := by
  intro f hf
  exact h f (deduplicateFaces_faces_subset hf)

/-! ### Compaction lemmas -/

theorem newIdx_succ_refd (faces : List Face) (i : ℕ) (h : refd faces i = true) :
    newIdx faces (i + 1) = newIdx faces i + 1 := by
  unfold newIdx
  rw [List.range_succ, List.filter_append]
  simp [h]

theorem newIdx_succ_not (faces : List Face) (i : ℕ) (h : refd faces i = false) :
    newIdx faces (i + 1) = newIdx faces i := by
  unfold newIdx
  rw [List.range_succ, List.filter_append]
  simp [h]

theorem newIdx_le_succ (faces : List Face) (i : ℕ) :
    newIdx faces i ≤ newIdx faces (i + 1) := by
  cases h : refd faces i
  · rw [newIdx_succ_not faces i h]
  · rw [newIdx_succ_refd faces i h]; omega

theorem newIdx_mono (faces : List Face) : ∀ {a b : ℕ}, a ≤ b →
    newIdx faces a ≤ newIdx faces b := by
  intro a b hab
  induction b with
  | zero => cases Nat.le_zero.1 hab; exact Nat.le_refl _
  | succ n ih =>
      rcases Nat.lt_or_ge a (n + 1) with hl | hg
      · exact Nat.le_trans (ih (Nat.lt_succ_iff.1 hl)) (newIdx_le_succ faces n)
      · have : a = n + 1 := Nat.le_antisymm hab hg
        subst this
        exact Nat.le_refl _

theorem newIdx_lt (faces : List Face) {i n : ℕ} (hin : i < n)
    (h : refd faces i = true) : newIdx faces i < newIdx faces n := by
  have h1 := newIdx_succ_refd faces i h
  have h2 : newIdx faces (i + 1) ≤ newIdx faces n := newIdx_mono faces hin
  omega

/-- Number of referenced vertices equals the compacted length. -/
theorem compact_length (faces : List Face) (vs : List MeshVertex) (d : MeshVertex) :
    (((List.range vs.length).filter (refd faces)).map (fun j => vs.getD j d)).length =
      newIdx faces vs.length := by
  rw [List.length_map]; rfl

/-- Element placed at the compacted position: the referenced vertex i of the
original list sits at position newIdx i in the compacted list. -/
theorem compact_getD {β : Type} (g : ℕ → β) (p : ℕ → Bool) :
    ∀ {i n : ℕ}, i < n → p i = true → ∀ d : β,
      (((List.range n).filter p).map g).getD (((List.range i).filter p).length) d = g i := by
  intro i n hin hp d
  obtain ⟨k, hk⟩ : ∃ k, n = (i + 1) + k :=
    ⟨n - (i + 1), by omega⟩
  subst hk
  rw [List.range_add, List.filter_append, List.map_append]
  have hlt : ((List.range i).filter p).length <
      (((List.range (i + 1)).filter p).map g).length := by
    rw [List.length_map, List.range_succ, List.filter_append]
    simp [hp]
  rw [List.getD_append _ _ _ _ hlt]
  rw [List.range_succ, List.filter_append, List.map_append]
  have hlen : (List.filter p (List.range i)).length =
      (List.map g (List.filter p (List.range i))).length := (List.length_map _ _).symm
  rw [hlen, List.getD_append_right _ _ _ _ (Nat.le_refl _), Nat.sub_self]
  simp [hp]

theorem Face.validIn_mono {f : Face} {a b : ℕ} (h : f.validIn a) (hab : a ≤ b) :
    f.validIn b := by
  rcases h with ⟨⟨h0, h0b⟩, ⟨h1, h1b⟩, ⟨h2, h2b⟩⟩
  have : (a : ℤ) ≤ (b : ℤ) := Int.ofNat_le.2 hab
  exact ⟨⟨h0, by omega⟩, ⟨h1, by omega⟩, ⟨h2, by omega⟩⟩

theorem refd_of_valid0 {faces : List Face} {f : Face} {n : ℕ} (hf : f ∈ faces)
    (hv : f.validIn n) : refd faces f.v0.toNat = true := by
  unfold refd
  rw [List.any_eq_true]
  exact ⟨f, hf, by simp [Int.toNat_of_nonneg hv.1.1]⟩

theorem refd_of_valid1 {faces : List Face} {f : Face} {n : ℕ} (hf : f ∈ faces)
    (hv : f.validIn n) : refd faces f.v1.toNat = true := by
  unfold refd
  rw [List.any_eq_true]
  exact ⟨f, hf, by simp [Int.toNat_of_nonneg hv.2.1.1]⟩

theorem refd_of_valid2 {faces : List Face} {f : Face} {n : ℕ} (hf : f ∈ faces)
    (hv : f.validIn n) : refd faces f.v2.toNat = true := by
  unfold refd
  rw [List.any_eq_true]
  exact ⟨f, hf, by simp [Int.toNat_of_nonneg hv.2.2.1]⟩

/-- Compacted structure of RemoveUnreferencedVertices in the non-trivial
case: the new vertex list and face list, spelled out. -/
theorem removeUnref_eq {m : Mesh} (hf : m.faces ≠ []) (hv : m.vertices ≠ []) :
    m.removeUnreferencedVertices =
      { m with
        vertices := ((List.range m.vertices.length).filter (refd m.faces)).map
          (fun i => m.vertices.getD i defaultVertex)
        faces := m.faces.map (remapFace m.faces) } := by
  unfold Mesh.removeUnreferencedVertices
  rw [if_neg (by simp [hf, hv])]

theorem removeUnref_vertices_length {m : Mesh} (hf : m.faces ≠ [])
    (hv : m.vertices ≠ []) :
    m.removeUnreferencedVertices.vertices.length = newIdx m.faces m.vertices.length := by
  rw [removeUnref_eq hf hv]
  exact compact_length m.faces m.vertices defaultVertex

theorem valid_mk {name : String} {vs : List MeshVertex} {fs : List Face}
    {bmin bmax : Vec3} :
    (Mesh.mk name vs fs bmin bmax).valid ↔ ∀ f ∈ fs, f.validIn vs.length := Iff.rfl

theorem removeUnreferencedVertices_valid {m : Mesh} (h : m.valid) :
    m.removeUnreferencedVertices.valid := by
  by_cases hf : m.faces = []
  · unfold Mesh.removeUnreferencedVertices
    rw [if_pos (Or.inl hf)]
    exact h
  by_cases hv : m.vertices = []
  · unfold Mesh.removeUnreferencedVertices
    rw [if_pos (Or.inr hv)]
    exact h
  rw [removeUnref_eq hf hv, valid_mk, compact_length m.faces m.vertices defaultVertex]
  intro f hmem
  rcases List.mem_map.1 hmem with ⟨g, hg, hgf⟩
  have hgv := h g hg
  have t0 : g.v0.toNat < m.vertices.length := by
    rcases hgv with ⟨⟨a, b⟩, _⟩; omega
  have t1 : g.v1.toNat < m.vertices.length := by
    rcases hgv with ⟨_, ⟨a, b⟩, _⟩; omega
  have t2 : g.v2.toNat < m.vertices.length := by
    rcases hgv with ⟨_, _, ⟨a, b⟩⟩; omega
  have b0 := newIdx_lt m.faces t0 (refd_of_valid0 hg hgv)
  have b1 := newIdx_lt m.faces t1 (refd_of_valid1 hg hgv)
  have b2 := newIdx_lt m.faces t2 (refd_of_valid2 hg hgv)
  subst hgf
  simp only [remapFace, Face.validIn]
  omega

theorem cleanMesh_valid {m : Mesh} (h : m.valid) : m.cleanMesh.1.valid :=
  removeUnreferencedVertices_valid
    (deduplicateFaces_valid (removeInternalFaces_valid (removeDegenerateFaces_valid h)))

/-! ### Compaction preserves the geometric data of every face -/

theorem removeUnref_getD {m : Mesh} (hf : m.faces ≠ []) (hv : m.vertices ≠ [])
    {i : ℕ} (hin : i < m.vertices.length) (hr : refd m.faces i = true) :
    m.removeUnreferencedVertices.vertices.getD (newIdx m.faces i) defaultVertex =
      m.vertices.getD i defaultVertex := by
  rw [removeUnref_eq hf hv]
  unfold newIdx
  exact compact_getD (fun j => m.vertices.getD j defaultVertex)
    (refd m.faces) hin hr defaultVertex

theorem toNat_lt_vlen0 {m : Mesh} {g : Face} (hgv : g.validIn m.vertices.length) :
    g.v0.toNat < m.vertices.length := by
  rcases hgv with ⟨⟨a, b⟩, _⟩; omega

theorem toNat_lt_vlen1 {m : Mesh} {g : Face} (hgv : g.validIn m.vertices.length) :
    g.v1.toNat < m.vertices.length := by
  rcases hgv with ⟨_, ⟨a, b⟩, _⟩; omega

theorem toNat_lt_vlen2 {m : Mesh} {g : Face} (hgv : g.validIn m.vertices.length) :
    g.v2.toNat < m.vertices.length := by
  rcases hgv with ⟨_, _, ⟨a, b⟩⟩; omega

theorem removeUnref_posAt0 {m : Mesh} (h : m.valid) (hf : m.faces ≠ [])
    (hv : m.vertices ≠ []) {g : Face} (hg : g ∈ m.faces) :
    m.removeUnreferencedVertices.posAt (remapFace m.faces g).v0 = m.posAt g.v0 := by
  have hgv := h g hg
  unfold Mesh.posAt
  have ht : (remapFace m.faces g).v0.toNat = newIdx m.faces g.v0.toNat := by
    simp [remapFace]
  rw [ht, removeUnref_getD hf hv (toNat_lt_vlen0 hgv) (refd_of_valid0 hg hgv)]

theorem removeUnref_posAt1 {m : Mesh} (h : m.valid) (hf : m.faces ≠ [])
    (hv : m.vertices ≠ []) {g : Face} (hg : g ∈ m.faces) :
    m.removeUnreferencedVertices.posAt (remapFace m.faces g).v1 = m.posAt g.v1 := by
  have hgv := h g hg
  unfold Mesh.posAt
  have ht : (remapFace m.faces g).v1.toNat = newIdx m.faces g.v1.toNat := by
    simp [remapFace]
  rw [ht, removeUnref_getD hf hv (toNat_lt_vlen1 hgv) (refd_of_valid1 hg hgv)]

theorem removeUnref_posAt2 {m : Mesh} (h : m.valid) (hf : m.faces ≠ [])
    (hv : m.vertices ≠ []) {g : Face} (hg : g ∈ m.faces) :
    m.removeUnreferencedVertices.posAt (remapFace m.faces g).v2 = m.posAt g.v2 := by
  have hgv := h g hg
  unfold Mesh.posAt
  have ht : (remapFace m.faces g).v2.toNat = newIdx m.faces g.v2.toNat := by
    simp [remapFace]
  rw [ht, removeUnref_getD hf hv (toNat_lt_vlen2 hgv) (refd_of_valid2 hg hgv)]

theorem removeUnref_faceCross {m : Mesh} (h : m.valid) (hf : m.faces ≠ [])
    (hv : m.vertices ≠ []) {g : Face} (hg : g ∈ m.faces) :
    m.removeUnreferencedVertices.faceCross (remapFace m.faces g) = m.faceCross g := by
  unfold Mesh.faceCross
  rw [removeUnref_posAt0 h hf hv hg, removeUnref_posAt1 h hf hv hg,
    removeUnref_posAt2 h hf hv hg]

theorem newIdx_inj {faces : List Face} {i j : ℕ} (hi : refd faces i = true)
    (hj : refd faces j = true) (h : newIdx faces i = newIdx faces j) : i = j := by
  rcases Nat.lt_trichotomy i j with hl | he | hl
  · exact absurd h (Nat.ne_of_lt (newIdx_lt faces hl hi))
  · exact he
  · exact absurd h.symm (Nat.ne_of_lt (newIdx_lt faces hl hj))

theorem degKeep_remap {m : Mesh} (h : m.valid) (hf : m.faces ≠ [])
    (hv : m.vertices ≠ []) {g : Face} (hg : g ∈ m.faces) :
    degKeep m.removeUnreferencedVertices (remapFace m.faces g) = degKeep m g := by
  have hgv := h g hg
  have r0 := refd_of_valid0 hg hgv
  have r1 := refd_of_valid1 hg hgv
  have r2 := refd_of_valid2 hg hgv
  have e01 : ((remapFace m.faces g).v0 = (remapFace m.faces g).v1) ↔ (g.v0 = g.v1) := by
    simp only [remapFace]
    constructor
    · intro he
      have hn := newIdx_inj r0 r1 (by exact_mod_cast he)
      rcases hgv with ⟨⟨a0, _⟩, ⟨a1, _⟩, _⟩
      omega
    · intro he; rw [he]
  have e12 : ((remapFace m.faces g).v1 = (remapFace m.faces g).v2) ↔ (g.v1 = g.v2) := by
    simp only [remapFace]
    constructor
    · intro he
      have hn := newIdx_inj r1 r2 (by exact_mod_cast he)
      rcases hgv with ⟨_, ⟨a1, _⟩, ⟨a2, _⟩⟩
      omega
    · intro he; rw [he]
  have e02 : ((remapFace m.faces g).v0 = (remapFace m.faces g).v2) ↔ (g.v0 = g.v2) := by
    simp only [remapFace]
    constructor
    · intro he
      have hn := newIdx_inj r0 r2 (by exact_mod_cast he)
      rcases hgv with ⟨⟨a0, _⟩, _, ⟨a2, _⟩⟩
      omega
    · intro he; rw [he]
  unfold degKeep
  by_cases hd : g.v0 = g.v1 ∨ g.v1 = g.v2 ∨ g.v0 = g.v2
  · rw [if_pos hd, if_pos (by rw [e01, e12, e02]; exact hd)]
  · rw [if_neg hd, if_neg (by rw [e01, e12, e02]; exact hd),
      removeUnref_faceCross h hf hv hg]

/-! ### The canonical key commutes with monotone index remapping -/

theorem perm3_swap01 (a b c : ℤ) : [b, a, c].Perm [a, b, c] := List.Perm.swap a b [c]

theorem perm3_swap12 (a b c : ℤ) : [a, c, b].Perm [a, b, c] :=
  List.Perm.cons a (List.Perm.swap b c [])

theorem perm3_cab (a b c : ℤ) : [c, a, b].Perm [a, b, c] :=
  (List.Perm.swap a c [b]).trans (perm3_swap12 a b c)

theorem perm3_bca (a b c : ℤ) : [b, c, a].Perm [a, b, c] :=
  (List.Perm.cons b (List.Perm.swap a c [])).trans (perm3_swap01 a b c)

theorem perm3_cba (a b c : ℤ) : [c, b, a].Perm [a, b, c] :=
  (List.Perm.cons c (List.Perm.swap a b [])).trans (perm3_cab a b c)

theorem faceKey_sorted (a b c : ℤ) :
    (faceKey a b c).1 ≤ (faceKey a b c).2.1 ∧ (faceKey a b c).2.1 ≤ (faceKey a b c).2.2 := by
  unfold faceKey
  dsimp only
  split_ifs <;> simp_all <;> omega

theorem faceKey_perm (a b c : ℤ) :
    [(faceKey a b c).1, (faceKey a b c).2.1, (faceKey a b c).2.2].Perm [a, b, c] := by
  unfold faceKey
  dsimp only
  split_ifs <;> simp_all <;>
    first
      | exact List.Perm.refl _
      | exact perm3_swap01 a b c
      | exact perm3_swap12 a b c
      | exact perm3_cab a b c
      | exact perm3_bca a b c
      | exact perm3_cba a b c
      | exact List.Perm.swap _ _ _

theorem sorted3 {p q r : ℤ} (hpq : p ≤ q) (hqr : q ≤ r) :
    List.Sorted (· ≤ ·) [p, q, r] := by
  refine List.Pairwise.cons ?_ (List.Pairwise.cons ?_ (List.pairwise_singleton _ _))
  · intro w hw
    rcases List.mem_cons.1 hw with h | h
    · subst h; omega
    · have h2 := List.mem_singleton.1 h
      subst h2; omega
  · intro w hw
    have h2 := List.mem_singleton.1 hw
    subst h2; omega

/-- Uniqueness of the sorted triple: any nondecreasing arrangement of the
same three values is the faceKey. -/
theorem faceKey_eq_sorted (a b c x y z : ℤ) (hperm : [x, y, z].Perm [a, b, c])
    (hxy : x ≤ y) (hyz : y ≤ z) : faceKey a b c = (x, y, z) := by
  rcases faceKey_sorted a b c with ⟨h12, h23⟩
  have hs1 : List.Sorted (· ≤ ·)
      [(faceKey a b c).1, (faceKey a b c).2.1, (faceKey a b c).2.2] := sorted3 h12 h23
  have hs2 : List.Sorted (· ≤ ·) [x, y, z] := sorted3 hxy hyz
  have heq := List.eq_of_perm_of_sorted ((faceKey_perm a b c).trans hperm.symm) hs1 hs2
  simp only [List.cons.injEq, and_true] at heq
  rcases heq with ⟨e1, e2, e3⟩
  exact Prod.ext e1 (Prod.ext e2 e3)

/-- faceKey commutes with a map that is monotone on the three arguments. -/
theorem faceKey_map (φ : ℤ → ℤ) (a b c : ℤ)
    (hm : ∀ x y : ℤ, x ∈ [a, b, c] → y ∈ [a, b, c] → x ≤ y → φ x ≤ φ y) :
    faceKey (φ a) (φ b) (φ c) =
      (φ (faceKey a b c).1, φ (faceKey a b c).2.1, φ (faceKey a b c).2.2) := by
  rcases faceKey_sorted a b c with ⟨h12, h23⟩
  have hmem : ∀ w ∈ [(faceKey a b c).1, (faceKey a b c).2.1, (faceKey a b c).2.2],
      w ∈ [a, b, c] := fun w hw => (faceKey_perm a b c).mem_iff.1 hw
  have m1 := hmem (faceKey a b c).1 (by simp)
  have m2 := hmem (faceKey a b c).2.1 (by simp)
  have m3 := hmem (faceKey a b c).2.2 (by simp)
  refine faceKey_eq_sorted (φ a) (φ b) (φ c) _ _ _ ?_ (hm _ _ m1 m2 h12) (hm _ _ m2 m3 h23)
  have := (faceKey_perm a b c).map φ
  simpa using this

theorem remapFace_key {m : Mesh} {g : Face} :
    (remapFace m.faces g).key =
      ((newIdx m.faces (g.key.1.toNat) : ℤ), (newIdx m.faces (g.key.2.1.toNat) : ℤ),
        (newIdx m.faces (g.key.2.2.toNat) : ℤ)) := by
  have hm : ∀ x y : ℤ, x ∈ [g.v0, g.v1, g.v2] → y ∈ [g.v0, g.v1, g.v2] → x ≤ y →
      ((newIdx m.faces x.toNat : ℕ) : ℤ) ≤ ((newIdx m.faces y.toNat : ℕ) : ℤ) := by
    intro x y _ _ hxy
    exact_mod_cast newIdx_mono m.faces (by omega)
  have hc := faceKey_map (fun i => ((newIdx m.faces i.toNat : ℕ) : ℤ)) g.v0 g.v1 g.v2 hm
  simpa [Face.key, remapFace] using hc

theorem key_comp_props {m : Mesh} {g : Face} (hg : g ∈ m.faces)
    (hgv : g.validIn m.vertices.length) {a : ℤ} (ha : a ∈ [g.v0, g.v1, g.v2]) :
    0 ≤ a ∧ refd m.faces a.toNat = true := by
  rcases List.mem_cons.1 ha with h | h
  · subst h; exact ⟨hgv.1.1, refd_of_valid0 hg hgv⟩
  rcases List.mem_cons.1 h with h | h
  · subst h; exact ⟨hgv.2.1.1, refd_of_valid1 hg hgv⟩
  · have h2 := List.mem_singleton.1 h
    subst h2; exact ⟨hgv.2.2.1, refd_of_valid2 hg hgv⟩

theorem key_comps_mem {g : Face} :
    g.key.1 ∈ [g.v0, g.v1, g.v2] ∧ g.key.2.1 ∈ [g.v0, g.v1, g.v2] ∧
      g.key.2.2 ∈ [g.v0, g.v1, g.v2] := by
  have hp := faceKey_perm g.v0 g.v1 g.v2
  refine ⟨hp.mem_iff.1 (by simp [Face.key]), hp.mem_iff.1 ?_, hp.mem_iff.1 ?_⟩ <;>
    simp [Face.key]

theorem remapFace_key_inj {m : Mesh} (h : m.valid) {f g : Face}
    (hf : f ∈ m.faces) (hg : g ∈ m.faces)
    (he : (remapFace m.faces f).key = (remapFace m.faces g).key) : f.key = g.key := by
  rw [remapFace_key, remapFace_key] at he
  simp only [Prod.mk.injEq] at he
  rcases he with ⟨e1, e2, e3⟩
  rcases key_comps_mem (g := f) with ⟨mf1, mf2, mf3⟩
  rcases key_comps_mem (g := g) with ⟨mg1, mg2, mg3⟩
  rcases key_comp_props hf (h f hf) mf1 with ⟨nf1, rf1⟩
  rcases key_comp_props hf (h f hf) mf2 with ⟨nf2, rf2⟩
  rcases key_comp_props hf (h f hf) mf3 with ⟨nf3, rf3⟩
  rcases key_comp_props hg (h g hg) mg1 with ⟨ng1, rg1⟩
  rcases key_comp_props hg (h g hg) mg2 with ⟨ng2, rg2⟩
  rcases key_comp_props hg (h g hg) mg3 with ⟨ng3, rg3⟩
  have q1 := newIdx_inj rf1 rg1 (by exact_mod_cast e1)
  have q2 := newIdx_inj rf2 rg2 (by exact_mod_cast e2)
  have q3 := newIdx_inj rf3 rg3 (by exact_mod_cast e3)

  rw [Prod.ext_iff, Prod.ext_iff]
  refine ⟨by omega, by omega, by omega⟩

theorem remap_keys_nodup {m : Mesh} (h : m.valid)
    (hnd : (m.faces.map Face.key).Nodup) :
    ((m.faces.map (remapFace m.faces)).map Face.key).Nodup := by
  rw [List.map_map]
  have hinj := List.inj_on_of_nodup_map hnd
  have hfaces : m.faces.Nodup := List.Nodup.of_map Face.key hnd
  refine List.Nodup.map_on ?_ hfaces
  intro x hx y hy hxy
  exact hinj hx hy (remapFace_key_inj h hx hy hxy)

/-! ### The second cleanup run removes nothing -/

theorem mesh_eta (m : Mesh) : Mesh.mk m.name m.vertices m.faces m.boundsMin m.boundsMax = m :=
  rfl

theorem degKeep_congr {m1 m2 : Mesh} (hv : m1.vertices = m2.vertices) (f : Face) :
    degKeep m1 f = degKeep m2 f := by
  unfold degKeep Mesh.faceCross Mesh.posAt
  rw [hv]

theorem removeDegenerateFaces_eq_of_all {m : Mesh}
    (h : ∀ f ∈ m.faces, degKeep m f = true) : m.removeDegenerateFaces = (m, 0) := by
  unfold Mesh.removeDegenerateFaces
  rw [List.filter_eq_self.2 h]
  exact Prod.ext (mesh_eta m) (Nat.sub_self _)

theorem cleanMesh_eq_of_clean {m : Mesh}
    (hdeg : ∀ f ∈ m.faces, degKeep m f = true)
    (hnd : (m.faces.map Face.key).Nodup) :
    m.cleanMesh = (m.removeUnreferencedVertices, 0) := by
  unfold Mesh.cleanMesh
  dsimp only
  rw [removeDegenerateFaces_eq_of_all hdeg]
  dsimp only
  rw [removeInternalFaces_eq_of_nodup hnd]
  dsimp only
  rw [deduplicateFaces_eq_of_nodup hnd]
  rfl

theorem removeUnref_id_of_empty {m : Mesh} (h : m.faces = [] ∨ m.vertices = []) :
    m.removeUnreferencedVertices = m := by
  unfold Mesh.removeUnreferencedVertices
  rw [if_pos h]

theorem cleanMesh_idem_aux (m : Mesh) (h : m.valid) :
    m.cleanMesh.1.cleanMesh.2 = 0 := by
  have hv1 : m.removeDegenerateFaces.1.valid := removeDegenerateFaces_valid h
  have hv2 := removeInternalFaces_valid hv1
  have hv3 := deduplicateFaces_valid hv2
  set m3 := m.removeDegenerateFaces.1.removeInternalFaces.1.deduplicateFaces.1 with hm3def
  have hfirst : m.cleanMesh.1 = m3.removeUnreferencedVertices := rfl
  have hdeg3 : ∀ f ∈ m3.faces, degKeep m3 f = true := by
    intro f hf
    have hf2 := deduplicateFaces_faces_subset hf
    have hf1 := removeInternalFaces_faces_subset hf2
    have hkept := (List.mem_filter.1 hf1).2
    have hcongr : degKeep m3 f = degKeep m f := degKeep_congr rfl f
    rw [hcongr]
    exact hkept
  have hnd3 : (m3.faces.map Face.key).Nodup := (dedupGo_nodup _ []).1
  rw [hfirst]
  by_cases hfe : m3.faces = []
  · rw [removeUnref_id_of_empty (Or.inl hfe), cleanMesh_eq_of_clean hdeg3 hnd3]
  by_cases hve : m3.vertices = []
  · rw [removeUnref_id_of_empty (Or.inr hve), cleanMesh_eq_of_clean hdeg3 hnd3]
  have hfaces4 : m3.removeUnreferencedVertices.faces = m3.faces.map (remapFace m3.faces) := by
    rw [removeUnref_eq hfe hve]
  have hdeg4 : ∀ f ∈ m3.removeUnreferencedVertices.faces,
      degKeep m3.removeUnreferencedVertices f = true := by
    rw [hfaces4]
    intro f hf
    rcases List.mem_map.1 hf with ⟨g, hg, rfl⟩
    rw [degKeep_remap hv3 hfe hve hg]
    exact hdeg3 g hg
  have hnd4 : (m3.removeUnreferencedVertices.faces.map Face.key).Nodup := by
    rw [hfaces4]
    exact remap_keys_nodup hv3 hnd3
  rw [cleanMesh_eq_of_clean hdeg4 hnd4]

/-! ### Welding-state invariants -/

theorem accumNormal_length (vs : List MeshVertex) (idx : ℕ) (n : Vec3) :
    (accumNormal vs idx n).length = vs.length := by
  unfold accumNormal
  simp

theorem lookupKey_append (mp : List (QKey × ℕ)) (k : QKey) (i : ℕ) (q : QKey) :
    lookupKey (mp ++ [(k, i)]) q =
      match lookupKey mp q with
      | some j => some j
      | none => if k = q then some i else none := by
  induction mp with
  | nil => rfl
  | cons p rest ih =>
      show lookupKey ((p.1, p.2) :: (rest ++ [(k, i)])) q = _
      unfold lookupKey
      by_cases hp : p.1 = q
      · simp [hp]
      · simp only [hp, if_neg, not_false_iff]
        exact ih

theorem weldVertex_faces (l : STLLoader) (s : WeldState) (pos n : Vec3) :
    (weldVertex l s pos n).1.mesh.faces = s.mesh.faces := by
  unfold weldVertex
  cases hd : l.noDedupe
  · dsimp only
    rw [if_neg (by simp [hd])]
    cases hl : lookupKey s.vertexMap (quantizePosition pos l.mergeTolerance) <;> simp [hl]
  · dsimp only
    rw [if_pos (by simp [hd])]

theorem weldVertex_name (l : STLLoader) (s : WeldState) (pos n : Vec3) :
    (weldVertex l s pos n).1.mesh.name = s.mesh.name := by
  unfold weldVertex
  cases hd : l.noDedupe
  · dsimp only
    rw [if_neg (by simp [hd])]
    cases hl : lookupKey s.vertexMap (quantizePosition pos l.mergeTolerance) <;> simp [hl]
  · dsimp only
    rw [if_pos (by simp [hd])]

theorem weldVertex_len_mono (l : STLLoader) (s : WeldState) (pos n : Vec3) :
    s.mesh.vertices.length ≤ (weldVertex l s pos n).1.mesh.vertices.length := by
  unfold weldVertex
  cases hd : l.noDedupe
  · dsimp only
    rw [if_neg (by simp [hd])]
    cases hl : lookupKey s.vertexMap (quantizePosition pos l.mergeTolerance)
    · simp [hl]
    · simp [hl, accumNormal_length]
  · dsimp only
    rw [if_pos (by simp [hd])]
    simp

theorem weldVertex_corners (l : STLLoader) (s : WeldState) (pos n : Vec3) :
    (weldVertex l s pos n).1.corners = s.corners ++ [(pos, (weldVertex l s pos n).2)] := by
  unfold weldVertex
  cases hd : l.noDedupe
  · dsimp only
    rw [if_neg (by simp [hd])]
    cases hl : lookupKey s.vertexMap (quantizePosition pos l.mergeTolerance) <;> simp [hl]
  · dsimp only
    rw [if_pos (by simp [hd])]

theorem weldVertex_idx_lt (l : STLLoader) (s : WeldState) (pos n : Vec3)
    (h : mapBounded s) :
    (weldVertex l s pos n).2 < (weldVertex l s pos n).1.mesh.vertices.length := by
  unfold weldVertex
  cases hd : l.noDedupe
  · dsimp only
    rw [if_neg (by simp [hd])]
    cases hl : lookupKey s.vertexMap (quantizePosition pos l.mergeTolerance)
    · simp [hl]
    · simpa [hl, accumNormal_length] using h _ _ hl
  · dsimp only
    rw [if_pos (by simp [hd])]
    simp

theorem weldVertex_mapBounded (l : STLLoader) (s : WeldState) (pos n : Vec3)
    (h : mapBounded s) : mapBounded (weldVertex l s pos n).1 := by
  unfold weldVertex
  cases hd : l.noDedupe
  · dsimp only
    rw [if_neg (by simp [hd])]
    cases hl : lookupKey s.vertexMap (quantizePosition pos l.mergeTolerance)
    · dsimp only
      intro k i hk
      simp only at hk
      rw [lookupKey_append] at hk
      simp only [List.length_append, List.length_singleton]
      cases hk2 : lookupKey s.vertexMap k
      · rw [hk2] at hk
        by_cases he : quantizePosition pos l.mergeTolerance = k
        · rw [if_pos he] at hk
          cases hk
          omega
        · rw [if_neg he] at hk
          cases hk
      · rw [hk2] at hk
        cases hk
        have := h _ _ hk2
        omega
    · dsimp only
      intro k i hk
      simp only at hk
      rw [accumNormal_length]
      exact h _ _ hk
  · dsimp only
    rw [if_pos (by simp [hd])]
    intro k i hk
    simp only at hk
    simp only [List.length_append, List.length_singleton]
    have := h _ _ hk
    omega

theorem weldVertex_valid (l : STLLoader) (s : WeldState) (pos n : Vec3)
    (h : s.mesh.valid) : (weldVertex l s pos n).1.mesh.valid := by
  intro f hf
  rw [weldVertex_faces] at hf
  exact Face.validIn_mono (h f hf) (weldVertex_len_mono l s pos n)

theorem weldVertex_weldInv (l : STLLoader) (s : WeldState) (pos n : Vec3)
    (h : weldInv s) : weldInv (weldVertex l s pos n).1 :=
  ⟨weldVertex_valid l s pos n h.1, weldVertex_mapBounded l s pos n h.2⟩

/-! ### Binary decoder invariants -/

theorem binRecord_weldInv (l : STLLoader) (data : List ℕ) (off : ℕ) {s : WeldState}
    (h : weldInv s) : weldInv (binRecord l data off s) := by
  unfold binRecord
  dsimp only
  have i0 := weldVertex_weldInv l s (readVec3 data (off + 12)) (readVec3 data off) h
  have l0 := weldVertex_idx_lt l s (readVec3 data (off + 12)) (readVec3 data off) h.2
  set r0 := weldVertex l s (readVec3 data (off + 12)) (readVec3 data off) with hr0
  have i1 := weldVertex_weldInv l r0.1 (readVec3 data (off + 24)) (readVec3 data off) i0
  have l1 := weldVertex_idx_lt l r0.1 (readVec3 data (off + 24)) (readVec3 data off) i0.2
  set r1 := weldVertex l r0.1 (readVec3 data (off + 24)) (readVec3 data off) with hr1
  have i2 := weldVertex_weldInv l r1.1 (readVec3 data (off + 36)) (readVec3 data off) i1
  have l2 := weldVertex_idx_lt l r1.1 (readVec3 data (off + 36)) (readVec3 data off) i1.2
  set r2 := weldVertex l r1.1 (readVec3 data (off + 36)) (readVec3 data off) with hr2
  have m1 : r0.1.mesh.vertices.length ≤ r1.1.mesh.vertices.length := by
    rw [hr1]
    exact weldVertex_len_mono l r0.1 _ _
  have m2 : r1.1.mesh.vertices.length ≤ r2.1.mesh.vertices.length := by
    rw [hr2]
    exact weldVertex_len_mono l r1.1 _ _
  constructor
  · intro f hf
    simp only at hf
    rcases List.mem_append.1 hf with hold | hnew
    · exact Face.validIn_mono (i2.1 f hold) (Nat.le_refl _)
    · have hfe := List.mem_singleton.1 hnew
      subst hfe
      simp only [Face.validIn]
      omega
  · intro k i hk
    simp only at hk
    exact i2.2 k i hk

theorem binLoop_weldInv (l : STLLoader) (data : List ℕ) :
    ∀ (n off : ℕ) (s s2 : WeldState), binLoop l data n off s = some s2 →
      weldInv s → weldInv s2 := by
  intro n
  induction n with
  | zero =>
      intro off s s2 hrun h
      cases hrun
      exact h
  | succ k ih =>
      intro off s s2 hrun h
      unfold binLoop at hrun
      by_cases hle : off + 48 ≤ data.length
      · rw [if_pos hle] at hrun
        exact ih _ _ _ hrun (binRecord_weldInv l data off h)
      · rw [if_neg hle] at hrun
        cases hrun

/-! ### The shared epilogue preserves validity -/

theorem valid_congr {m1 m2 : Mesh} (hv : m2.vertices.length = m1.vertices.length)
    (hf : m2.faces = m1.faces) (h : m1.valid) : m2.valid := by
  intro f hf2
  rw [hf] at hf2
  rw [hv]
  exact h f hf2

theorem calculateBounds_vertices (m : Mesh) : m.calculateBounds.vertices = m.vertices := by
  unfold Mesh.calculateBounds
  cases hv : m.vertices
  · exact hv
  · rfl

theorem calculateBounds_faces (m : Mesh) : m.calculateBounds.faces = m.faces := by
  unfold Mesh.calculateBounds
  cases hv : m.vertices <;> rfl

theorem addNormalAt_length (vs : List MeshVertex) (i : ℤ) (n : Vec3) :
    (addNormalAt vs i n).length = vs.length := by
  unfold addNormalAt
  simp

theorem smoothFold_length (g : List MeshVertex → Face → List MeshVertex)
    (hg : ∀ vs f, (g vs f).length = vs.length) :
    ∀ (fs : List Face) (vs : List MeshVertex), (fs.foldl g vs).length = vs.length := by
  intro fs
  induction fs with
  | nil => intro vs; rfl
  | cons f t ih =>
      intro vs
      show (t.foldl g (g vs f)).length = vs.length
      rw [ih (g vs f), hg vs f]

theorem calculateSmoothNormals_vertices_length (m : Mesh) :
    m.calculateSmoothNormals.vertices.length = m.vertices.length := by
  unfold Mesh.calculateSmoothNormals
  dsimp only
  rw [List.length_map]
  rw [smoothFold_length _ (by
    intro vs f
    simp [addNormalAt_length])]
  rw [List.length_map]

theorem calculateSmoothNormals_faces (m : Mesh) :
    m.calculateSmoothNormals.faces = m.faces := rfl

theorem finishMesh_valid (l : STLLoader) {m : Mesh} (h : m.valid) :
    (finishMesh l m).valid := by
  unfold finishMesh
  dsimp only
  have h1 : (if l.noDedupe then m
      else { m with vertices :=
        m.vertices.map (fun v => { v with normal := v.normal.normalizeDir }) }).valid := by
    cases hd : l.noDedupe
    · rw [if_neg (by simp [hd])]
      exact @valid_congr m
        { m with vertices :=
            m.vertices.map (fun v => { v with normal := v.normal.normalizeDir }) }
        (by simp) rfl h
    · rw [if_pos (by simp [hd])]
      exact h
  have h2 := valid_congr (congrArg List.length (calculateBounds_vertices _))
    (calculateBounds_faces _) h1
  have h3 : (if l.smoothNormals then
      (if l.noDedupe then m
        else { m with vertices :=
          m.vertices.map (fun v => { v with normal := v.normal.normalizeDir }) }).calculateBounds.calculateSmoothNormals
      else (if l.noDedupe then m
        else { m with vertices :=
          m.vertices.map (fun v => { v with normal := v.normal.normalizeDir }) }).calculateBounds).valid := by
    cases hs : l.smoothNormals
    · rw [if_neg (by simp)]
      exact h2
    · rw [if_pos rfl]
      exact valid_congr (calculateSmoothNormals_vertices_length _)
        (calculateSmoothNormals_faces _) h2
  cases hc : l.cleanOpt
  · rw [if_neg (by simp)]
    exact h3
  · rw [if_pos rfl]
    exact cleanMesh_valid h3

theorem initWeld_weldInv (name : String) : weldInv (initWeld name) := by
  constructor
  · intro f hf
    cases hf
  · intro k i hk
    cases hk

theorem loadBinary_valid {l : STLLoader} {data : List ℕ} {name : String} {m : Mesh}
    (h : loadBinary l data name = .ok m) : m.valid := by
  unfold loadBinary at h
  by_cases h84 : data.length < 84
  · rw [if_pos h84] at h
    cases h
  rw [if_neg h84] at h
  dsimp only at h
  by_cases htr : data.length % 2 ^ 32 < (84 + leU32 data 80 * 50) % 2 ^ 32
  · rw [if_pos htr] at h
    cases h
  rw [if_neg htr] at h
  cases hcore : loadBinaryCore l data name with
  | none =>
      rw [hcore] at h
      cases h
  | some s =>
      rw [hcore] at h
      cases h
      unfold loadBinaryCore at hcore
      exact finishMesh_valid l
        (binLoop_weldInv l data _ _ _ _ hcore (initWeld_weldInv name)).1

/-! ### Text decoder invariants -/

theorem initAscii_inv (name : String) : asciiInv (initAscii name) := by
  refine ⟨initWeld_weldInv name, ?_⟩
  intro i hi
  cases hi

theorem asciiInv_flags {st : AsciiState} (h : asciiInv st) (cn : Vec3) (b1 b2 : Bool) :
    asciiInv ⟨st.weld, cn, st.faceVerts, b1, b2⟩ := ⟨h.1, h.2⟩

theorem asciiInv_reset {st : AsciiState} (h : asciiInv st) (cn : Vec3) (b1 b2 : Bool) :
    asciiInv ⟨st.weld, cn, [], b1, b2⟩ :=
  ⟨h.1, by intro i hi; cases hi⟩

theorem weldInv_rename {s : WeldState} (nm : String) (h : weldInv s) :
    weldInv ⟨{ s.mesh with name := nm }, s.vertexMap, s.corners⟩ := by
  constructor
  · intro f hf
    exact h.1 f hf
  · intro k i hk
    exact h.2 k i hk

theorem asciiInv_vertex {l : STLLoader} {st : AsciiState} (pos nv : Vec3)
    (h : asciiInv st) :
    asciiInv ⟨(weldVertex l st.weld pos nv).1, st.currentNormal,
      st.faceVerts ++ [(weldVertex l st.weld pos nv).2], st.inFacet, st.inLoop⟩ := by
  refine ⟨weldVertex_weldInv l st.weld pos nv h.1, ?_⟩
  intro i hi
  rcases List.mem_append.1 hi with hi | hi
  · exact Nat.lt_of_lt_of_le (h.2 i hi) (weldVertex_len_mono l st.weld pos nv)
  · have he := List.mem_singleton.1 hi
    subst he
    exact weldVertex_idx_lt l st.weld pos nv h.1.2

theorem getD_mem_of_lt {l : List ℕ} {i : ℕ} (h : i < l.length) (d : ℕ) :
    l.getD i d ∈ l := by
  rw [List.getD_eq_getElem l d h]
  exact List.getElem_mem h

theorem asciiInv_endfacet {st : AsciiState} (h : asciiInv st)
    (hlen : st.faceVerts.length ≥ 3) (b1 b2 : Bool) :
    asciiInv ⟨⟨{ st.weld.mesh with faces := st.weld.mesh.faces ++
        [⟨(st.faceVerts.getD 0 0 : ℤ), (st.faceVerts.getD 2 0 : ℤ),
          (st.faceVerts.getD 1 0 : ℤ), -1⟩] },
      st.weld.vertexMap, st.weld.corners⟩, st.currentNormal, [], b1, b2⟩ := by
  obtain ⟨⟨hval, hmb⟩, hfv⟩ := h
  refine ⟨⟨?_, ?_⟩, ?_⟩
  · intro f hf
    simp only at hf
    rcases List.mem_append.1 hf with hold | hnew
    · exact hval f hold
    · have he := List.mem_singleton.1 hnew
      subst he
      have g0 := hfv _ (getD_mem_of_lt (l := st.faceVerts) (i := 0) (by omega) 0)
      have g1 := hfv _ (getD_mem_of_lt (l := st.faceVerts) (i := 1) (by omega) 0)
      have g2 := hfv _ (getD_mem_of_lt (l := st.faceVerts) (i := 2) (by omega) 0)
      simp only [Face.validIn]
      omega
  · intro k i hk
    exact hmb k i hk
  · intro i hi
    cases hi

theorem asciiStep_inv {l : STLLoader} {st : AsciiState} {n : ℕ} {line : List ℕ}
    {st2 : AsciiState} (hstep : asciiStep l st n line = .ok st2) (h : asciiInv st) :
    asciiInv st2 := by
  unfold asciiStep at hstep
  split at hstep
  · cases hstep
    exact h
  · rename_i f0 rest heq
    dsimp only at hstep
    by_cases h1 : f0.map lowerByte = solidTok
    · rw [if_pos h1] at hstep
      cases rest with
      | nil =>
          cases hstep
          exact ⟨h.1, h.2⟩
      | cons nm rest2 =>
          cases hstep
          exact ⟨weldInv_rename _ h.1, h.2⟩
    · rw [if_neg h1] at hstep
      by_cases h2 : f0.map lowerByte = facetTok
      · rw [if_pos h2] at hstep
        by_cases h3 : rest.length ≥ 4 ∧ (rest.headD []).map lowerByte = normalTok
        · rw [if_pos h3] at hstep
          cases hp1 : parseFloatQ (rest.getD 1 []) with
          | none => rw [hp1] at hstep; cases hstep
          | some nx =>
            rw [hp1] at hstep
            cases hp2 : parseFloatQ (rest.getD 2 []) with
            | none => rw [hp2] at hstep; cases hstep
            | some ny =>
              rw [hp2] at hstep
              cases hp3 : parseFloatQ (rest.getD 3 []) with
              | none => rw [hp3] at hstep; cases hstep
              | some nz =>
                rw [hp3] at hstep
                cases hstep
                exact asciiInv_reset h _ _ _
        · rw [if_neg h3] at hstep
          cases hstep
          exact asciiInv_reset h _ _ _
      · rw [if_neg h2] at hstep
        by_cases h4 : f0.map lowerByte = outerTok
        · rw [if_pos h4] at hstep
          by_cases h5 : rest.length ≥ 1 ∧ (rest.headD []).map lowerByte = loopTok
          · rw [if_pos h5] at hstep
            cases hstep
            exact asciiInv_flags h _ _ _
          · rw [if_neg h5] at hstep
            cases hstep
            exact h
        · rw [if_neg h4] at hstep
          by_cases h6 : f0.map lowerByte = vertexTok
          · rw [if_pos h6] at hstep
            by_cases h7 : ¬st.inFacet ∨ ¬st.inLoop
            · rw [if_pos h7] at hstep
              cases hstep
            · rw [if_neg h7] at hstep
              by_cases h8 : rest.length < 3
              · rw [if_pos h8] at hstep
                cases hstep
              · rw [if_neg h8] at hstep
                cases hq1 : parseFloatQ (rest.getD 0 []) with
                | none => rw [hq1] at hstep; cases hstep
                | some x =>
                  rw [hq1] at hstep
                  cases hq2 : parseFloatQ (rest.getD 1 []) with
                  | none => rw [hq2] at hstep; cases hstep
                  | some y =>
                    rw [hq2] at hstep
                    cases hq3 : parseFloatQ (rest.getD 2 []) with
                    | none => rw [hq3] at hstep; cases hstep
                    | some z =>
                      rw [hq3] at hstep
                      cases hstep
                      exact asciiInv_vertex _ _ h
          · rw [if_neg h6] at hstep
            by_cases h9 : f0.map lowerByte = endloopTok
            · rw [if_pos h9] at hstep
              cases hstep
              exact asciiInv_flags h _ _ _
            · rw [if_neg h9] at hstep
              by_cases h10 : f0.map lowerByte = endfacetTok
              · rw [if_pos h10] at hstep
                by_cases h11 : st.faceVerts.length ≥ 3
                · rw [if_pos h11] at hstep
                  cases hstep
                  exact asciiInv_endfacet h h11 _ _
                · rw [if_neg h11] at hstep
                  cases hstep
                  exact asciiInv_reset h _ _ _
              · rw [if_neg h10] at hstep
                by_cases h12 : f0.map lowerByte = endsolidTok
                · rw [if_pos h12] at hstep
                  cases hstep
                  exact h
                · rw [if_neg h12] at hstep
                  cases hstep
                  exact h

theorem asciiRun_inv (l : STLLoader) :
    ∀ (ls : List (List ℕ)) (n : ℕ) (st st2 : AsciiState),
      asciiRun l ls n st = .ok st2 → asciiInv st → asciiInv st2 := by
  intro ls
  induction ls with
  | nil =>
      intro n st st2 hr h
      cases hr
      exact h
  | cons line rest ih =>
      intro n st st2 hr h
      unfold asciiRun at hr
      cases hs : asciiStep l st n line with
      | error e =>
          rw [hs] at hr
          cases hr
      | ok stm =>
          rw [hs] at hr
          exact ih _ _ _ hr (asciiStep_inv hs h)

theorem loadASCII_valid {l : STLLoader} {data : List ℕ} {name : String} {m : Mesh}
    (h : loadASCII l data name = .ok m) : m.valid := by
  unfold loadASCII at h
  cases hc : loadASCIICore l data name with
  | error e =>
      rw [hc] at h
      cases h
  | ok st =>
      rw [hc] at h
      cases h
      unfold loadASCIICore at hc
      exact finishMesh_valid l (asciiRun_inv l _ _ _ _ hc (initAscii_inv name)).1.1

/-! ### Welding correctness: the vertex map against the ghost corner record -/

theorem lookupKey_isSome_iff (mp : List (QKey × ℕ)) (k : QKey) :
    (lookupKey mp k).isSome ↔ k ∈ mp.map Prod.fst := by
  induction mp with
  | nil => simp [lookupKey]
  | cons p rest ih =>
      show (lookupKey ((p.1, p.2) :: rest) k).isSome ↔ _
      unfold lookupKey
      by_cases hp : p.1 = k
      · simp [hp]
      · simp only [hp, if_neg, not_false_iff, List.map_cons, List.mem_cons]
        rw [ih]
        constructor
        · intro hm
          exact Or.inr hm
        · intro hm
          rcases hm with hm | hm
          · exact absurd hm.symm hp
          · exact hm

theorem initWeld_weldedInv (tol : ℚ) (name : String) : WeldedInv tol (initWeld name) := by
  refine ⟨rfl, List.nodup_nil, ?_, ?_⟩
  · intro k
    simp [initWeld, lookupKey, cornerKeys]
  · intro pi hpi
    cases hpi

theorem weldVertex_weldedInv {l : STLLoader} (hnd : l.noDedupe = false)
    {s : WeldState} (h : WeldedInv l.mergeTolerance s) (pos nv : Vec3) :
    WeldedInv l.mergeTolerance (weldVertex l s pos nv).1 := by
  unfold weldVertex
  rw [if_neg (by simp [hnd])]
  cases hl : lookupKey s.vertexMap (quantizePosition pos l.mergeTolerance) with
  | some idx =>
      simp only [hl]
      refine ⟨?_, h.keys_nodup, ?_, ?_⟩
      · simp only [accumNormal_length]
        exact h.len_eq
      · intro k
        constructor
        · intro hsome
          have hmem := (h.mem_keys k).1 hsome
          unfold cornerKeys at hmem ⊢
          simp only [List.map_append, List.mem_append]
          exact Or.inl hmem
        · intro hm
          unfold cornerKeys at hm
          simp only [List.map_append, List.mem_append, List.map_cons, List.map_nil,
            List.mem_singleton] at hm
          rcases hm with hm | hm
          · exact (h.mem_keys k).2 hm
          · subst hm
            rw [hl]
            simp
      · intro pi hpi
        rcases List.mem_append.1 hpi with hold | hnew
        · exact h.corner_lookup pi hold
        · have he := List.mem_singleton.1 hnew
          subst he
          exact hl
  | none =>
      simp only [hl]
      have hnotin : quantizePosition pos l.mergeTolerance ∉ s.vertexMap.map Prod.fst := by
        rw [← lookupKey_isSome_iff, hl]
        simp
      refine ⟨?_, ?_, ?_, ?_⟩
      · simp only [List.length_append, List.length_singleton]
        rw [h.len_eq]
      · simp only [List.map_append]
        rw [List.nodup_append]
        refine ⟨h.keys_nodup, List.nodup_singleton _, ?_⟩
        intro k hk hk2
        have he := List.mem_singleton.1 hk2
        subst he
        exact hnotin hk
      · intro k
        rw [lookupKey_append]
        unfold cornerKeys
        simp only [List.map_append, List.mem_append]
        cases hk2 : lookupKey s.vertexMap k
        · have hne := (h.mem_keys k)
          rw [hk2] at hne
          simp only [Option.isSome_none, Bool.false_eq_true, false_iff] at hne
          by_cases he : quantizePosition pos l.mergeTolerance = k
          · simp [he, cornerKeys]
          · simp only [he, if_neg, not_false_iff]
            constructor
            · intro hs
              simp at hs
            · intro hm
              rcases hm with hm | hm
              · exact absurd (by simpa [cornerKeys] using hm) hne
              · simp only [List.map_cons, List.map_nil, List.mem_singleton] at hm
                exact absurd hm.symm he
        · have hs := (h.mem_keys k)
          rw [hk2] at hs
          simp only [Option.isSome_some, true_iff] at hs
          simp only [hk2, Option.isSome_some, true_iff]
          exact Or.inl (by simpa [cornerKeys] using hs)
      · intro pi hpi
        rw [lookupKey_append]
        rcases List.mem_append.1 hpi with hold | hnew
        · rw [h.corner_lookup pi hold]
        · have he := List.mem_singleton.1 hnew
          subst he
          rw [hl]
          simp

theorem weldedInv_count {tol : ℚ} {s : WeldState} (h : WeldedInv tol s) :
    s.mesh.vertices.length = (cornerKeys tol s.corners).dedup.length := by
  rw [h.len_eq, ← List.length_map s.vertexMap Prod.fst]
  have hmem : ∀ k, k ∈ s.vertexMap.map Prod.fst ↔ k ∈ (cornerKeys tol s.corners).dedup := by
    intro k
    rw [List.mem_dedup, ← h.mem_keys k, lookupKey_isSome_iff]
  exact ((List.perm_ext_iff_of_nodup h.keys_nodup (List.nodup_dedup _)).2 hmem).length_eq

theorem weldedInv_shared {tol : ℚ} {s : WeldState} (h : WeldedInv tol s) :
    ∀ p ∈ s.corners, ∀ q ∈ s.corners,
      quantizePosition p.1 tol = quantizePosition q.1 tol → p.2 = q.2 := by
  intro p hp q hq he
  have h1 := h.corner_lookup p hp
  have h2 := h.corner_lookup q hq
  rw [he, h2] at h1
  exact (Option.some.inj h1).symm

/-- One binary record appends three corners and one face whose index triple
is the corner triple with the second and third assigned indices swapped. -/
theorem binRecord_step (l : STLLoader) (data : List ℕ) (off : ℕ) (s : WeldState) :
    ∃ i0 i1 i2 : ℕ,
      (binRecord l data off s).corners =
        s.corners ++ [(readVec3 data (off + 12), i0), (readVec3 data (off + 24), i1),
          (readVec3 data (off + 36), i2)] ∧
      (binRecord l data off s).mesh.faces =
        s.mesh.faces ++ [⟨(i0 : ℤ), (i2 : ℤ), (i1 : ℤ), -1⟩] ∧
      (binRecord l data off s).mesh.vertices = (weldVertex l
        (weldVertex l (weldVertex l s (readVec3 data (off + 12)) (readVec3 data off)).1
          (readVec3 data (off + 24)) (readVec3 data off)).1
        (readVec3 data (off + 36)) (readVec3 data off)).1.mesh.vertices ∧
      (binRecord l data off s).vertexMap = (weldVertex l
        (weldVertex l (weldVertex l s (readVec3 data (off + 12)) (readVec3 data off)).1
          (readVec3 data (off + 24)) (readVec3 data off)).1
        (readVec3 data (off + 36)) (readVec3 data off)).1.vertexMap := by
  unfold binRecord
  dsimp only
  refine ⟨(weldVertex l s (readVec3 data (off + 12)) (readVec3 data off)).2,
    (weldVertex l (weldVertex l s (readVec3 data (off + 12)) (readVec3 data off)).1
      (readVec3 data (off + 24)) (readVec3 data off)).2,
    (weldVertex l (weldVertex l (weldVertex l s (readVec3 data (off + 12))
        (readVec3 data off)).1 (readVec3 data (off + 24)) (readVec3 data off)).1
      (readVec3 data (off + 36)) (readVec3 data off)).2, ?_, ?_, rfl, rfl⟩
  · rw [weldVertex_corners, weldVertex_corners, weldVertex_corners]
    simp [List.append_assoc]
  · rw [weldVertex_faces, weldVertex_faces, weldVertex_faces]

theorem binRecord_cornerFaceInv (l : STLLoader) (data : List ℕ) (off : ℕ)
    {s : WeldState} (h : cornerFaceInv s) : cornerFaceInv (binRecord l data off s) := by
  obtain ⟨i0, i1, i2, hc, hf, _, _⟩ := binRecord_step l data off s
  have hcl : s.corners.length = 3 * s.mesh.faces.length := h.1
  constructor
  · rw [hc, hf]
    simp only [List.length_append, List.length_cons, List.length_nil]
    omega
  · intro j hj
    rw [hf] at hj
    simp only [List.length_append, List.length_cons, List.length_nil] at hj
    rw [hc, hf]
    by_cases hjl : j < s.mesh.faces.length
    · rw [List.getD_append _ _ _ _ hjl,
        List.getD_append _ _ _ _ (by omega),
        List.getD_append _ _ _ _ (by omega),
        List.getD_append _ _ _ _ (by omega)]
      exact h.2 j hjl
    · have hje : j = s.mesh.faces.length := by omega
      subst hje
      rw [List.getD_append_right _ _ _ _ (by omega),
        List.getD_append_right _ _ _ _ (by omega),
        List.getD_append_right _ _ _ _ (by omega),
        List.getD_append_right _ _ _ _ (by omega)]
      rw [hcl]
      refine ⟨?_, ?_, ?_⟩ <;> simp only [Nat.sub_self, Nat.add_sub_cancel_left] <;> rfl

theorem initWeld_cornerFaceInv (name : String) : cornerFaceInv (initWeld name) := by
  constructor
  · rfl
  · intro j hj
    cases hj

/-- Generic preservation through the binary triangle loop. -/
theorem binLoop_pres {l : STLLoader} {data : List ℕ} {P : WeldState → Prop}
    (hP : ∀ off s, P s → P (binRecord l data off s)) :
    ∀ (n off : ℕ) (s s2 : WeldState), binLoop l data n off s = some s2 → P s → P s2 := by
  intro n
  induction n with
  | zero =>
      intro off s s2 hrun h
      cases hrun
      exact h
  | succ k ih =>
      intro off s s2 hrun h
      unfold binLoop at hrun
      by_cases hle : off + 48 ≤ data.length
      · rw [if_pos hle] at hrun
        exact ih _ _ _ hrun (hP off s h)
      · rw [if_neg hle] at hrun
        cases hrun

/-- A welding invariant that only reads vertices, map and corners transfers
to the state with a face appended. -/
theorem weldedInv_faces_irrel {tol : ℚ} {s : WeldState} (h : WeldedInv tol s)
    (m2 : Mesh) (hv : m2.vertices = s.mesh.vertices) :
    WeldedInv tol ⟨m2, s.vertexMap, s.corners⟩ := by
  refine ⟨?_, h.keys_nodup, h.mem_keys, h.corner_lookup⟩
  show m2.vertices.length = s.vertexMap.length
  rw [hv]
  exact h.len_eq

theorem binRecord_weldedInv {l : STLLoader} (hnd : l.noDedupe = false)
    (data : List ℕ) (off : ℕ) {s : WeldState} (h : WeldedInv l.mergeTolerance s) :
    WeldedInv l.mergeTolerance (binRecord l data off s) := by
  have h3 := weldVertex_weldedInv hnd (weldVertex_weldedInv hnd
    (weldVertex_weldedInv hnd h (readVec3 data (off + 12)) (readVec3 data off))
    (readVec3 data (off + 24)) (readVec3 data off))
    (readVec3 data (off + 36)) (readVec3 data off)
  unfold binRecord
  dsimp only
  exact weldedInv_faces_irrel h3 _ rfl

theorem weldVertex_noDedupeLen {l : STLLoader} (hnd : l.noDedupe = true)
    (s : WeldState) (pos nv : Vec3) (h : noDedupeLen s) :
    noDedupeLen (weldVertex l s pos nv).1 := by
  unfold weldVertex
  rw [if_pos (by simp [hnd])]
  show (s.mesh.vertices ++ _).length = (s.corners ++ _).length
  simp only [List.length_append, List.length_singleton]
  rw [h]

theorem binRecord_noDedupeLen {l : STLLoader} (hnd : l.noDedupe = true)
    (data : List ℕ) (off : ℕ) {s : WeldState} (h : noDedupeLen s) :
    noDedupeLen (binRecord l data off s) := by
  have h3 := weldVertex_noDedupeLen hnd _ (readVec3 data (off + 36)) (readVec3 data off)
    (weldVertex_noDedupeLen hnd _ (readVec3 data (off + 24)) (readVec3 data off)
      (weldVertex_noDedupeLen hnd s (readVec3 data (off + 12)) (readVec3 data off) h))
  unfold binRecord
  dsimp only
  exact h3

theorem initWeld_noDedupeLen (name : String) : noDedupeLen (initWeld name) := rfl

/-- The epilogue leaves counts unchanged when cleanup is off. -/
theorem finishMesh_counts {l : STLLoader} (hc : l.cleanOpt = false) (m : Mesh) :
    (finishMesh l m).vertices.length = m.vertices.length ∧
      (finishMesh l m).faces = m.faces := by
  unfold finishMesh
  dsimp only
  rw [if_neg (by simp [hc])]
  have base : ∀ mm : Mesh,
      ((if l.smoothNormals then mm.calculateBounds.calculateSmoothNormals
        else mm.calculateBounds).vertices.length = mm.vertices.length ∧
      (if l.smoothNormals then mm.calculateBounds.calculateSmoothNormals
        else mm.calculateBounds).faces = mm.faces) := by
    intro mm
    cases hs : l.smoothNormals
    · rw [if_neg (by simp)]
      exact ⟨congrArg List.length (calculateBounds_vertices mm), calculateBounds_faces mm⟩
    · rw [if_pos rfl]
      constructor
      · rw [calculateSmoothNormals_vertices_length,
          congrArg List.length (calculateBounds_vertices mm)]
      · rw [calculateSmoothNormals_faces, calculateBounds_faces]
  have hb := base (if l.noDedupe then m
    else { m with vertices :=
      m.vertices.map (fun v => { v with normal := v.normal.normalizeDir }) })
  rcases hb with ⟨b1, b2⟩
  constructor
  · rw [b1]
    cases hn : l.noDedupe
    · rw [if_neg (by simp [hn])]
      simp
    · rw [if_pos (by simp [hn])]
  · rw [b2]
    cases hn : l.noDedupe
    · rw [if_neg (by simp [hn])]
    · rw [if_pos (by simp [hn])]

/-- Shape of every successful text-decoder step: the welding state is
unchanged, extended by one welded vertex, renamed, or extended by one face. -/
theorem asciiStep_cases {l : STLLoader} {st : AsciiState} {n : ℕ} {line : List ℕ}
    {st2 : AsciiState} (hstep : asciiStep l st n line = .ok st2) :
    (st2.weld = st.weld ∧ (st2.faceVerts = st.faceVerts ∨ st2.faceVerts = [])) ∨
    (∃ pos, st2.weld = (weldVertex l st.weld pos st.currentNormal).1 ∧
      st2.faceVerts = st.faceVerts ++ [(weldVertex l st.weld pos st.currentNormal).2]) ∨
    (∃ nm, st2.weld = ⟨{ st.weld.mesh with name := nm }, st.weld.vertexMap,
        st.weld.corners⟩ ∧ st2.faceVerts = st.faceVerts) ∨
    (∃ fs, st2.weld = ⟨{ st.weld.mesh with faces := fs }, st.weld.vertexMap,
        st.weld.corners⟩ ∧ st2.faceVerts = []) := by
  unfold asciiStep at hstep
  split at hstep
  · cases hstep
    exact Or.inl ⟨rfl, Or.inl rfl⟩
  · rename_i f0 rest heq
    dsimp only at hstep
    by_cases h1 : f0.map lowerByte = solidTok
    · rw [if_pos h1] at hstep
      cases rest with
      | nil =>
          cases hstep
          exact Or.inl ⟨rfl, Or.inl rfl⟩
      | cons nm rest2 =>
          cases hstep
          exact Or.inr (Or.inr (Or.inl ⟨asString nm, rfl, rfl⟩))
    · rw [if_neg h1] at hstep
      by_cases h2 : f0.map lowerByte = facetTok
      · rw [if_pos h2] at hstep
        by_cases h3 : rest.length ≥ 4 ∧ (rest.headD []).map lowerByte = normalTok
        · rw [if_pos h3] at hstep
          cases hp1 : parseFloatQ (rest.getD 1 []) with
          | none => rw [hp1] at hstep; cases hstep
          | some nx =>
            rw [hp1] at hstep
            cases hp2 : parseFloatQ (rest.getD 2 []) with
            | none => rw [hp2] at hstep; cases hstep
            | some ny =>
              rw [hp2] at hstep
              cases hp3 : parseFloatQ (rest.getD 3 []) with
              | none => rw [hp3] at hstep; cases hstep
              | some nz =>
                rw [hp3] at hstep
                cases hstep
                exact Or.inl ⟨rfl, Or.inr rfl⟩
        · rw [if_neg h3] at hstep
          cases hstep
          exact Or.inl ⟨rfl, Or.inr rfl⟩
      · rw [if_neg h2] at hstep
        by_cases h4 : f0.map lowerByte = outerTok
        · rw [if_pos h4] at hstep
          by_cases h5 : rest.length ≥ 1 ∧ (rest.headD []).map lowerByte = loopTok
          · rw [if_pos h5] at hstep
            cases hstep
            exact Or.inl ⟨rfl, Or.inl rfl⟩
          · rw [if_neg h5] at hstep
            cases hstep
            exact Or.inl ⟨rfl, Or.inl rfl⟩
        · rw [if_neg h4] at hstep
          by_cases h6 : f0.map lowerByte = vertexTok
          · rw [if_pos h6] at hstep
            by_cases h7 : ¬st.inFacet ∨ ¬st.inLoop
            · rw [if_pos h7] at hstep
              cases hstep
            · rw [if_neg h7] at hstep
              by_cases h8 : rest.length < 3
              · rw [if_pos h8] at hstep
                cases hstep
              · rw [if_neg h8] at hstep
                cases hq1 : parseFloatQ (rest.getD 0 []) with
                | none => rw [hq1] at hstep; cases hstep
                | some x =>
                  rw [hq1] at hstep
                  cases hq2 : parseFloatQ (rest.getD 1 []) with
                  | none => rw [hq2] at hstep; cases hstep
                  | some y =>
                    rw [hq2] at hstep
                    cases hq3 : parseFloatQ (rest.getD 2 []) with
                    | none => rw [hq3] at hstep; cases hstep
                    | some z =>
                      rw [hq3] at hstep
                      cases hstep
                      exact Or.inr (Or.inl ⟨Vec3.mk x y z, rfl, rfl⟩)
          · rw [if_neg h6] at hstep
            by_cases h9 : f0.map lowerByte = endloopTok
            · rw [if_pos h9] at hstep
              cases hstep
              exact Or.inl ⟨rfl, Or.inl rfl⟩
            · rw [if_neg h9] at hstep
              by_cases h10 : f0.map lowerByte = endfacetTok
              · rw [if_pos h10] at hstep
                by_cases h11 : st.faceVerts.length ≥ 3
                · rw [if_pos h11] at hstep
                  cases hstep
                  exact Or.inr (Or.inr (Or.inr ⟨_, rfl, rfl⟩))
                · rw [if_neg h11] at hstep
                  cases hstep
                  exact Or.inl ⟨rfl, Or.inr rfl⟩
              · rw [if_neg h10] at hstep
                by_cases h12 : f0.map lowerByte = endsolidTok
                · rw [if_pos h12] at hstep
                  cases hstep
                  exact Or.inl ⟨rfl, Or.inl rfl⟩
                · rw [if_neg h12] at hstep
                  cases hstep
                  exact Or.inl ⟨rfl, Or.inl rfl⟩

theorem asciiRun_pres {l : STLLoader} {P : AsciiState → Prop}
    (hP : ∀ (st : AsciiState) (n : ℕ) (line : List ℕ) (st2 : AsciiState),
      asciiStep l st n line = .ok st2 → P st → P st2) :
    ∀ (ls : List (List ℕ)) (n : ℕ) (st st2 : AsciiState),
      asciiRun l ls n st = .ok st2 → P st → P st2 := by
  intro ls
  induction ls with
  | nil =>
      intro n st st2 hr h
      cases hr
      exact h
  | cons line rest ih =>
      intro n st st2 hr h
      unfold asciiRun at hr
      cases hs : asciiStep l st n line with
      | error e =>
          rw [hs] at hr
          cases hr
      | ok stm =>
          rw [hs] at hr
          exact ih _ _ _ hr (hP _ _ _ _ hs h)

theorem asciiStep_weldedInv {l : STLLoader} (hnd : l.noDedupe = false)
    {st : AsciiState} {n : ℕ} {line : List ℕ} {st2 : AsciiState}
    (hstep : asciiStep l st n line = .ok st2)
    (h : WeldedInv l.mergeTolerance st.weld) : WeldedInv l.mergeTolerance st2.weld := by
  rcases asciiStep_cases hstep with ⟨hw, _⟩ | ⟨pos, hw, _⟩ | ⟨nm, hw, _⟩ | ⟨fs, hw, _⟩
  · rw [hw]
    exact h
  · rw [hw]
    exact weldVertex_weldedInv hnd h pos st.currentNormal
  · rw [hw]
    exact weldedInv_faces_irrel h _ rfl
  · rw [hw]
    exact weldedInv_faces_irrel h _ rfl

theorem noDedupeLen_congr {s : WeldState} (m2 : Mesh)
    (hv : m2.vertices = s.mesh.vertices) (h : noDedupeLen s) :
    noDedupeLen ⟨m2, s.vertexMap, s.corners⟩ := by
  show m2.vertices.length = s.corners.length
  rw [hv]
  exact h

theorem asciiStep_noDedupeLen {l : STLLoader} (hnd : l.noDedupe = true)
    {st : AsciiState} {n : ℕ} {line : List ℕ} {st2 : AsciiState}
    (hstep : asciiStep l st n line = .ok st2)
    (h : noDedupeLen st.weld) : noDedupeLen st2.weld := by
  rcases asciiStep_cases hstep with ⟨hw, _⟩ | ⟨pos, hw, _⟩ | ⟨nm, hw, _⟩ | ⟨fs, hw, _⟩
  · rw [hw]
    exact h
  · rw [hw]
    exact weldVertex_noDedupeLen hnd st.weld pos st.currentNormal h
  · rw [hw]
    exact noDedupeLen_congr _ rfl h
  · rw [hw]
    exact noDedupeLen_congr _ rfl h

/-! ### Claim theorems -/

/-- C1. Index integrity: every mesh returned by loadBinary or loadASCII
satisfies invariant I1 (each face index in [0, vertex count)), and each of
the four cleanup stages and the CleanMesh pipeline preserve I1 (their Go
bodies index the vertex slice, so they are entered with I1 holding). -/
theorem C1_index_integrity :
    (∀ (l : STLLoader) (data : List ℕ) (name : String) (m : Mesh),
        loadBinary l data name = .ok m → m.valid) ∧
    (∀ (l : STLLoader) (data : List ℕ) (name : String) (m : Mesh),
        loadASCII l data name = .ok m → m.valid) ∧
    (∀ m : Mesh, m.valid → m.removeDegenerateFaces.1.valid) ∧
    (∀ m : Mesh, m.valid → m.removeInternalFaces.1.valid) ∧
    (∀ m : Mesh, m.valid → m.deduplicateFaces.1.valid) ∧
    (∀ m : Mesh, m.valid → m.removeUnreferencedVertices.valid) ∧
    (∀ m : Mesh, m.valid → m.cleanMesh.1.valid) :=
  ⟨fun _ _ _ _ h => loadBinary_valid h,
   fun _ _ _ _ h => loadASCII_valid h,
   fun _ h => removeDegenerateFaces_valid h,
   fun _ h => removeInternalFaces_valid h,
   fun _ h => deduplicateFaces_valid h,
   fun _ h => removeUnreferencedVertices_valid h,
   fun _ h => cleanMesh_valid h⟩

/-- Witness for C1 at the concrete three-face scene. -/
theorem C1_index_integrity_witness : (Mesh.cleanMesh m7concrete).1.valid :=
  C1_index_integrity.2.2.2.2.2.2 m7concrete (by decide)

/-- C8. Cleanup idempotence: an immediate second run of the four-stage
pipeline removes zero faces, for every mesh satisfying I1 (the pipeline
indexes the vertex slice, so Go requires I1 on entry). -/
theorem C8_idempotence (m : Mesh) (h : m.valid) : m.cleanMesh.1.cleanMesh.2 = 0 :=
  cleanMesh_idem_aux m h

/-- Witness for C8 at the concrete three-face scene, where the first run
removes two faces. -/
theorem C8_idempotence_witness :
    m7concrete.cleanMesh.1.cleanMesh.2 = 0 ∧ m7concrete.cleanMesh.2 = 2 :=
  ⟨C8_idempotence m7concrete (by decide), by with_unfolding_all decide⟩

/-- C4 as amended: the sniffer classifies buffers under 84 bytes as text;
for a buffer of at least 84 bytes whose whitespace-trimmed front starts
with the solid token it answers binary exactly when 84 + count * 50 equals
the buffer length with both sides reduced modulo 2^32 (the comparison the
source performs on uint32 values); every other buffer of at least 84 bytes
is classified binary. -/
theorem C4_format_sniffing (data : List ℕ) :
    (data.length < 84 → isBinarySTL data = false) ∧
    (84 ≤ data.length →
      (leadsWith solidTok ((data.dropWhile wsLeadByte).map (· % 256)) = true →
        (isBinarySTL data = true ↔
          (84 + leU32 data 80 * 50) % 2 ^ 32 = data.length % 2 ^ 32)) ∧
      (leadsWith solidTok ((data.dropWhile wsLeadByte).map (· % 256)) = false →
        isBinarySTL data = true)) := by
  unfold isBinarySTL
  dsimp only
  constructor
  · intro h
    rw [if_pos h]
  · intro h
    rw [if_neg (by omega)]
    constructor
    · intro hs
      rw [if_pos hs]
      exact decide_eq_true_iff
    · intro hs
      rw [if_neg (by rw [hs]; exact Bool.false_ne_true)]

/-- Witness for C4: the empty buffer is classified text, and a buffer of 84
zero bytes (no solid token) is classified binary. -/
theorem C4_format_sniffing_witness :
    isBinarySTL [] = false ∧ isBinarySTL (List.replicate 84 0) = true :=
  ⟨(C4_format_sniffing []).1 (by decide),
   ((C4_format_sniffing (List.replicate 84 0)).2 (by decide)).2 (by decide)⟩

/-- Counterexample for C4 as stated: a 134-byte buffer starting with the
solid token whose declared count 2^31 + 1 gives 84 + count * 50 =
107374182534, far from the length 134, yet the uint32 computation wraps to
134 and the sniffer answers binary where the claim demands text. -/
theorem C4_counterexample :
    isBinarySTL c4buf = true ∧
    leU32 c4buf 80 = 2147483649 ∧
    c4buf.length = 134 ∧
    84 + leU32 c4buf 80 * 50 ≠ c4buf.length := by
  refine ⟨by decide, by decide, by decide, by decide⟩

/-- C5 as amended: loadBinary returns the truncation error, reporting the
expected size 84 + count * 50 and the actual byte count, exactly for
buffers of at least 84 bytes whose length is smaller than the expected
size when both are reduced modulo 2^32 (the uint32 comparison of the
source); the decoding loop of any load produces exactly count faces, and
the returned mesh has exactly count faces whenever the cleanup option is
off; bytes beyond the expected size are ignored rather than rejected. -/
theorem C5_truncation :
    (∀ (l : STLLoader) (data : List ℕ) (name : String) (e a : ℕ),
      loadBinary l data name = .err (.truncated e a) ↔
        (84 ≤ data.length ∧
          data.length % 2 ^ 32 < (84 + leU32 data 80 * 50) % 2 ^ 32 ∧
          e = (84 + leU32 data 80 * 50) % 2 ^ 32 ∧ a = data.length)) ∧
    (∀ (l : STLLoader) (data : List ℕ) (name : String) (s : WeldState),
      loadBinaryCore l data name = some s →
        s.mesh.faces.length = leU32 data 80) ∧
    (∀ (l : STLLoader) (data : List ℕ) (name : String) (m : Mesh),
      l.cleanOpt = false → loadBinary l data name = .ok m →
        m.faces.length = leU32 data 80) := by
  have hcore : ∀ (l : STLLoader) (data : List ℕ) (name : String) (s : WeldState),
      loadBinaryCore l data name = some s → s.mesh.faces.length = leU32 data 80 := by
    intro l data name s hc
    unfold loadBinaryCore at hc
    have hgen : ∀ (n off : ℕ) (t t2 : WeldState), binLoop l data n off t = some t2 →
        t2.mesh.faces.length = t.mesh.faces.length + n := by
      intro n
      induction n with
      | zero =>
          intro off t t2 hr
          cases hr
          omega
      | succ k ih =>
          intro off t t2 hr
          unfold binLoop at hr
          by_cases hle : off + 48 ≤ data.length
          · rw [if_pos hle] at hr
            have := ih _ _ _ hr
            obtain ⟨i0, i1, i2, _, hf, _, _⟩ := binRecord_step l data off t
            rw [this, hf]
            simp only [List.length_append, List.length_cons, List.length_nil]
            omega
          · rw [if_neg hle] at hr
            cases hr
    have := hgen _ _ _ _ hc
    simpa [initWeld, newMesh] using this
  refine ⟨?_, hcore, ?_⟩
  · intro l data name e a
    unfold loadBinary
    by_cases h84 : data.length < 84
    · rw [if_pos h84]
      constructor
      · intro h
        cases h
      · intro h
        omega
    · rw [if_neg h84]
      dsimp only
      by_cases htr : data.length % 2 ^ 32 < (84 + leU32 data 80 * 50) % 2 ^ 32
      · rw [if_pos htr]
        constructor
        · intro h
          cases h
          exact ⟨by omega, htr, rfl, rfl⟩
        · intro h
          rw [h.2.2.1, h.2.2.2]
      · rw [if_neg htr]
        cases hcr : loadBinaryCore l data name
        · constructor
          · intro h
            cases h
          · intro h
            exact absurd h.2.1 htr
        · constructor
          · intro h
            cases h
          · intro h
            exact absurd h.2.1 htr
  · intro l data name m hcl h
    unfold loadBinary at h
    by_cases h84 : data.length < 84
    · rw [if_pos h84] at h
      cases h
    rw [if_neg h84] at h
    dsimp only at h
    by_cases htr : data.length % 2 ^ 32 < (84 + leU32 data 80 * 50) % 2 ^ 32
    · rw [if_pos htr] at h
      cases h
    rw [if_neg htr] at h
    cases hcr : loadBinaryCore l data name with
    | none =>
        rw [hcr] at h
        cases h
    | some s =>
        rw [hcr] at h
        cases h
        rw [(finishMesh_counts hcl s.mesh).2]
        exact hcore l data name s hcr

/-- Witness for C5: the 134-byte buffer declaring two triangles yields the
truncation error with expected 184 and actual 134 bytes. -/
theorem C5_truncation_witness :
    loadBinary defaultLoader c5short "t" = .err (.truncated 184 134) :=
  (C5_truncation.1 defaultLoader c5short "t" 184 134).2
    ⟨by decide, by decide, by decide, by decide⟩

/-- Counterexample for C5 as stated: a 141-byte buffer whose count 1 makes
84 + count * 50 = 134 unequal to the size, yet loadBinary succeeds with
one face instead of returning a truncation error. -/
theorem C5_counterexample :
    c5buf.length = 141 ∧
    leU32 c5buf 80 = 1 ∧
    84 + leU32 c5buf 80 * 50 ≠ c5buf.length ∧
    loadedFCount (loadBinary defaultLoader c5buf "t") = some 1 := by
  refine ⟨by decide, by decide, by decide, ?_⟩
  with_unfolding_all decide

/-- C9 as amended: for every valid mesh with at least one face and at
least one vertex, RemoveUnreferencedVertices keeps exactly the vertices
referenced by some face, in original relative order (each referenced
vertex i moves to compacted position newIdx i with its data intact), and
remaps every face index so the face addresses the same vertex data as
before; a mesh with no faces or no vertices is returned unchanged. -/
theorem C9_compaction :
    (∀ m : Mesh, (m.faces = [] ∨ m.vertices = []) →
      m.removeUnreferencedVertices = m) ∧
    (∀ m : Mesh, m.valid → m.faces ≠ [] → m.vertices ≠ [] →
      m.removeUnreferencedVertices.vertices =
        ((List.range m.vertices.length).filter (refd m.faces)).map
          (fun i => m.vertices.getD i defaultVertex) ∧
      (∀ i : ℕ, refd m.faces i = true ↔
        ∃ f ∈ m.faces, f.v0 = (i : ℤ) ∨ f.v1 = (i : ℤ) ∨ f.v2 = (i : ℤ)) ∧
      (∀ i : ℕ, i < m.vertices.length → refd m.faces i = true →
        m.removeUnreferencedVertices.vertices.getD (newIdx m.faces i) defaultVertex =
          m.vertices.getD i defaultVertex) ∧
      m.removeUnreferencedVertices.faces = m.faces.map (remapFace m.faces) ∧
      (∀ g ∈ m.faces,
        m.removeUnreferencedVertices.posAt (remapFace m.faces g).v0 = m.posAt g.v0 ∧
        m.removeUnreferencedVertices.posAt (remapFace m.faces g).v1 = m.posAt g.v1 ∧
        m.removeUnreferencedVertices.posAt (remapFace m.faces g).v2 = m.posAt g.v2 ∧
        (remapFace m.faces g).material = g.material)) := by
  constructor
  · intro m h
    exact removeUnref_id_of_empty h
  · intro m hv hf hvs
    refine ⟨?_, ?_, ?_, ?_, ?_⟩
    · rw [removeUnref_eq hf hvs]
    · intro i
      unfold refd
      rw [List.any_eq_true]
      constructor
      · intro hx
        rcases hx with ⟨f, hm, hp⟩
        refine ⟨f, hm, ?_⟩
        have hp2 := by simpa using hp
        tauto
      · intro hx
        rcases hx with ⟨f, hm, hp⟩
        refine ⟨f, hm, ?_⟩
        simp only [Bool.or_eq_true, decide_eq_true_eq]
        tauto
    · intro i hi hr
      exact removeUnref_getD hf hvs hi hr
    · rw [removeUnref_eq hf hvs]
    · intro g hg
      exact ⟨removeUnref_posAt0 hv hf hvs hg, removeUnref_posAt1 hv hf hvs hg,
        removeUnref_posAt2 hv hf hvs hg, rfl⟩

/-- Witness for C9 at a mesh with two vertices of which only the second is
referenced: the compacted list keeps the referenced vertex. -/
theorem C9_compaction_witness :
    m9bconcrete.removeUnreferencedVertices.vertices =
      [sceneVertex ⟨8, 8, 8⟩] ∧
    m9bconcrete.removeUnreferencedVertices.faces = [⟨0, 0, 0, -1⟩] := by
  have h := (C9_compaction.2 m9bconcrete (by decide) (by decide) (by decide))
  refine ⟨?_, ?_⟩
  · rw [h.1]
    decide
  · rw [h.2.2.2.1]
    decide

/-- Counterexample for C9 as stated: on a mesh with one vertex and no
faces, the operation returns early and keeps the unreferenced vertex, so
the vertex list does not consist of exactly the referenced vertices. -/
theorem C9_counterexample :
    m9concrete.removeUnreferencedVertices.vertices = [defaultVertex] ∧
    refd m9concrete.faces 0 = false := by
  exact ⟨by decide, by decide⟩

/-- After the full pipeline, every surviving face passes the degenerate
test of the final mesh. -/
theorem cleanMesh_faces_degKeep {m : Mesh} (h : m.valid) :
    ∀ f ∈ m.cleanMesh.1.faces, degKeep m.cleanMesh.1 f = true := by
  have hv3 := deduplicateFaces_valid (removeInternalFaces_valid
    (removeDegenerateFaces_valid h))
  set m3 := m.removeDegenerateFaces.1.removeInternalFaces.1.deduplicateFaces.1
    with hm3def
  have hfirst : m.cleanMesh.1 = m3.removeUnreferencedVertices := rfl
  have hdeg3 : ∀ f ∈ m3.faces, degKeep m3 f = true := by
    intro f hf
    have hf2 := deduplicateFaces_faces_subset hf
    have hf1 := removeInternalFaces_faces_subset hf2
    have hkept := (List.mem_filter.1 hf1).2
    have hcongr : degKeep m3 f = degKeep m f := degKeep_congr rfl f
    rw [hcongr]
    exact hkept
  rw [hfirst]
  by_cases hfe : m3.faces = []
  · rw [removeUnref_id_of_empty (Or.inl hfe)]
    exact hdeg3
  by_cases hve : m3.vertices = []
  · rw [removeUnref_id_of_empty (Or.inr hve)]
    exact hdeg3
  have hfaces4 : m3.removeUnreferencedVertices.faces =
      m3.faces.map (remapFace m3.faces) := by
    rw [removeUnref_eq hfe hve]
  rw [hfaces4]
  intro f hf
  rcases List.mem_map.1 hf with ⟨g, hg, rfl⟩
  have hdr : degKeep m3.removeUnreferencedVertices (remapFace m3.faces g) =
      degKeep m3 g := degKeep_remap hv3 hfe hve hg
  rw [hdr]
  exact hdeg3 g hg

/-- Elimination form of the keep test of RemoveDegenerateFaces. -/
theorem degKeep_true_iff (m : Mesh) (f : Face) :
    degKeep m f = true ↔
      ¬((f.v0 = f.v1 ∨ f.v1 = f.v2 ∨ f.v0 = f.v2) ∨
        (m.faceCross f).lenSq ≤ 4 / 10 ^ 20) := by
  unfold degKeep
  by_cases hd : f.v0 = f.v1 ∨ f.v1 = f.v2 ∨ f.v0 = f.v2
  · rw [if_pos hd]
    simp [hd]
  · rw [if_neg hd]
    rw [decide_eq_true_iff]
    constructor
    · intro hgt hc
      rcases hc with hc | hc
      · exact hd hc
      · exact absurd hgt (by linarith)
    · intro hnc
      by_contra hle
      exact hnc (Or.inr (by linarith))

/-- C6 as amended: RemoveDegenerateFaces removes exactly the faces with
two equal vertex indices or cross-product-derived area (half the
cross-product magnitude) at most 1e-10, that is cross-product magnitude at
most 2e-10 — rendered square-free as squared cross magnitude at most
4e-20; and after CleanMesh runs on a valid mesh, every face has distinct
indices and squared cross magnitude above 4e-20 (area above 1e-10). -/
theorem C6_degenerate_faces :
    (∀ (m : Mesh) (f : Face), degKeep m f = true ↔
      ¬((f.v0 = f.v1 ∨ f.v1 = f.v2 ∨ f.v0 = f.v2) ∨
        (m.faceCross f).lenSq ≤ 4 / 10 ^ 20)) ∧
    (∀ m : Mesh, m.removeDegenerateFaces.1.faces = m.faces.filter (degKeep m) ∧
      m.removeDegenerateFaces.2 =
        m.faces.length - (m.faces.filter (degKeep m)).length) ∧
    (∀ m : Mesh, m.valid → ∀ f ∈ m.cleanMesh.1.faces,
      ¬(f.v0 = f.v1 ∨ f.v1 = f.v2 ∨ f.v0 = f.v2) ∧
        4 / 10 ^ 20 < (m.cleanMesh.1.faceCross f).lenSq) := by
  refine ⟨degKeep_true_iff, fun m => ⟨rfl, rfl⟩, ?_⟩
  intro m hv f hf
  have hk := cleanMesh_faces_degKeep hv f hf
  rw [degKeep_true_iff] at hk
  push_neg at hk
  refine ⟨?_, by linarith [hk.2]⟩
  intro hc
  rcases hc with hc | hc | hc
  · exact hk.1.1 hc
  · exact hk.1.2.1 hc
  · exact hk.1.2.2 hc

/-- Witness for C6: on the concrete scene the surviving face of the
pipeline has distinct indices and area above the threshold. -/
theorem C6_degenerate_faces_witness :
    ¬((0 : ℤ) = 1 ∨ (1 : ℤ) = 2 ∨ (0 : ℤ) = 2) ∧
      4 / 10 ^ 20 < (m7concrete.cleanMesh.1.faceCross ⟨0, 1, 2, -1⟩).lenSq := by
  have h := C6_degenerate_faces.2.2 m7concrete (by decide) ⟨0, 1, 2, -1⟩
    (by with_unfolding_all decide)
  exact ⟨by decide, h.2⟩

/-- Counterexample for C6 as stated: a face whose cross product has
magnitude 1.5e-10 (squared 2.25e-20, above the squared claimed threshold
1e-20) is nevertheless removed, because the code thresholds the area
|cross|/2 at 1e-10, i.e. the magnitude at 2e-10. -/
theorem C6_counterexample :
    m6concrete.removeDegenerateFaces.1.faces = [] ∧
    m6concrete.removeDegenerateFaces.2 = 1 ∧
    ¬(((0 : ℤ) = 1 ∨ (1 : ℤ) = 2 ∨ (0 : ℤ) = 2)) ∧
    (1 / 10 ^ 10 : ℚ) ^ 2 < (m6concrete.faceCross ⟨0, 1, 2, -1⟩).lenSq := by
  refine ⟨?_, ?_, by decide, ?_⟩ <;> with_unfolding_all decide

theorem cross_swap_lenSq (a b : Vec3) : (b.cross a).lenSq = (a.cross b).lenSq := by
  simp only [Vec3.cross, Vec3.lenSq]
  ring

theorem dot_cross_swap (a b : Vec3) :
    (a.cross b).dot (b.cross a) = -(a.cross b).lenSq := by
  simp only [Vec3.cross, Vec3.dot, Vec3.lenSq]
  ring

/-- Reversing the winding of a face flips its cross product, so the source
normalized-dot test fires: the square-free opposite test accepts the pair. -/
theorem opposed_swap {a b : Vec3} (h : 0 < (a.cross b).lenSq) :
    opposed (a.cross b) (b.cross a) = true := by
  unfold opposed
  have hswap : (b.cross a).lenSq = (a.cross b).lenSq := cross_swap_lenSq a b
  rw [decide_eq_true_iff, dot_cross_swap a b, hswap]
  constructor
  · linarith
  · have he : (-(a.cross b).lenSq) ^ 2 = (a.cross b).lenSq * (a.cross b).lenSq := by
      ring
    rw [he]
    have hx : 0 < (a.cross b).lenSq * (a.cross b).lenSq := mul_pos h h
    linarith

/-- C7. Internal-face-pair removal scenario: on a mesh of two coplanar
triangles over the same three vertices with opposite winding plus one
unrelated non-degenerate triangle, CleanMesh removes exactly the two
opposing faces and retains the unrelated one (remapped onto the compacted
vertex list, which keeps exactly its three vertices). -/
theorem C7_internal_pair (p0 p1 p2 q0 q1 q2 : Vec3)
    (h1 : 4 / 10 ^ 20 < ((p1.sub p0).cross (p2.sub p0)).lenSq)
    (h2 : 4 / 10 ^ 20 < ((q1.sub q0).cross (q2.sub q0)).lenSq) :
    (mkScene p0 p1 p2 q0 q1 q2).cleanMesh.2 = 2 ∧
    (mkScene p0 p1 p2 q0 q1 q2).cleanMesh.1.faces = [⟨0, 1, 2, -1⟩] ∧
    (mkScene p0 p1 p2 q0 q1 q2).cleanMesh.1.vertices =
      [sceneVertex q0, sceneVertex q1, sceneVertex q2] := by
  set m := mkScene p0 p1 p2 q0 q1 q2 with hm
  have hc0 : m.faceCross ⟨0, 1, 2, -1⟩ = (p1.sub p0).cross (p2.sub p0) := rfl
  have hc1 : m.faceCross ⟨0, 2, 1, -1⟩ = (p2.sub p0).cross (p1.sub p0) := rfl
  have hc2 : m.faceCross ⟨3, 4, 5, -1⟩ = (q1.sub q0).cross (q2.sub q0) := rfl
  have k0 : degKeep m ⟨0, 1, 2, -1⟩ = true := by
    unfold degKeep
    rw [if_neg (by decide), hc0]
    exact decide_eq_true h1
  have k1 : degKeep m ⟨0, 2, 1, -1⟩ = true := by
    unfold degKeep
    rw [if_neg (by decide), hc1, cross_swap_lenSq]
    exact decide_eq_true h1
  have k2 : degKeep m ⟨3, 4, 5, -1⟩ = true := by
    unfold degKeep
    rw [if_neg (by decide), hc2]
    exact decide_eq_true h2
  have hstage1 : m.removeDegenerateFaces = (m, 0) := by
    refine removeDegenerateFaces_eq_of_all ?_
    intro f hf
    have hf2 : f = ⟨0, 1, 2, -1⟩ ∨ f = ⟨0, 2, 1, -1⟩ ∨ f = ⟨3, 4, 5, -1⟩ := by
      simpa [hm, mkScene] using hf
    rcases hf2 with rfl | rfl | rfl
    · exact k0
    · exact k1
    · exact k2
  have hopp : opposed (m.faceCross ⟨0, 1, 2, -1⟩) (m.faceCross ⟨0, 2, 1, -1⟩) = true := by
    rw [hc0, hc1]
    exact opposed_swap (by linarith)
  have hmg : markGroup [(0, m.faceCross ⟨0, 1, 2, -1⟩),
      (1, m.faceCross ⟨0, 2, 1, -1⟩)] [] = [0, 1] := by
    simp [markGroup, findOpp, hopp]
  have hkeys : (m.faces.map Face.key).dedup = [(0, 1, 2), (3, 4, 5)] := rfl
  have hg1 : m.groupOf (0, 1, 2) =
      [(0, m.faceCross ⟨0, 1, 2, -1⟩), (1, m.faceCross ⟨0, 2, 1, -1⟩)] := rfl
  have hg2 : m.groupOf (3, 4, 5) = [(2, m.faceCross ⟨3, 4, 5, -1⟩)] := rfl
  have hflat : ((m.faces.map Face.key).dedup.flatMap
      (fun k => markGroup (m.groupOf k) [])) = [0, 1] := by
    rw [hkeys]
    rw [List.flatMap_cons, List.flatMap_cons, List.flatMap_nil]
    rw [hg1, hg2, hmg, markGroup_short [(2, m.faceCross ⟨3, 4, 5, -1⟩)] (by simp)]
    rfl
  have hstage2 : m.removeInternalFaces = ({ m with faces := [⟨3, 4, 5, -1⟩] }, 2) := by
    unfold Mesh.removeInternalFaces
    dsimp only
    rw [hflat]
    rfl
  have hstage3 : (Mesh.deduplicateFaces { m with faces := [⟨3, 4, 5, -1⟩] }) =
      ({ m with faces := [⟨3, 4, 5, -1⟩] }, 0) :=
    deduplicateFaces_eq_of_nodup (List.nodup_singleton _)
  have hstage4 : (Mesh.removeUnreferencedVertices { m with faces := [⟨3, 4, 5, -1⟩] }) =
      { m with
        vertices := [sceneVertex q0, sceneVertex q1, sceneVertex q2]
        faces := [⟨0, 1, 2, -1⟩] } := by
    rw [removeUnref_eq (by simp) (by simp [hm, mkScene])]
    rfl
  have hclean : m.cleanMesh =
      ({ m with
          vertices := [sceneVertex q0, sceneVertex q1, sceneVertex q2]
          faces := [⟨0, 1, 2, -1⟩] }, 2) := by
    unfold Mesh.cleanMesh
    dsimp only
    rw [hstage1]
    dsimp only
    rw [hstage2]
    dsimp only
    rw [hstage3]
    dsimp only
    rw [hstage4]
  rw [hclean]
  exact ⟨rfl, rfl, rfl⟩

/-- Witness for C7 at concrete coordinates: the pair in the plane z = 0 and
an unrelated triangle nearby. -/
theorem C7_internal_pair_witness :
    (mkScene ⟨0, 0, 0⟩ ⟨1, 0, 0⟩ ⟨0, 1, 0⟩ ⟨5, 0, 0⟩ ⟨6, 0, 0⟩ ⟨5, 1, 0⟩).cleanMesh.2 = 2 ∧
    (mkScene ⟨0, 0, 0⟩ ⟨1, 0, 0⟩ ⟨0, 1, 0⟩ ⟨5, 0, 0⟩ ⟨6, 0, 0⟩
      ⟨5, 1, 0⟩).cleanMesh.1.faces = [⟨0, 1, 2, -1⟩] ∧
    (mkScene ⟨0, 0, 0⟩ ⟨1, 0, 0⟩ ⟨0, 1, 0⟩ ⟨5, 0, 0⟩ ⟨6, 0, 0⟩
      ⟨5, 1, 0⟩).cleanMesh.1.vertices =
      [sceneVertex ⟨5, 0, 0⟩, sceneVertex ⟨6, 0, 0⟩, sceneVertex ⟨5, 1, 0⟩] :=
  C7_internal_pair ⟨0, 0, 0⟩ ⟨1, 0, 0⟩ ⟨0, 1, 0⟩ ⟨5, 0, 0⟩ ⟨6, 0, 0⟩ ⟨5, 1, 0⟩
    (by with_unfolding_all decide) (by with_unfolding_all decide)

/-- C2 as amended. Welding correctness: with welding on (NoDedupe false)
every two corner positions with the same quantized key (coordinates scaled
by the reciprocal tolerance and rounded, 1e-12 substituted for tolerance
at most 0, as quantizePosition does) receive the same vertex index, and
the decoded vertex count equals the number of distinct keys over the
processed corner positions; with NoDedupe set the vertex count equals the
number of processed corners — 3 × the triangle count for binary input, the
number of vertex directives for ASCII input (which is 3 × the triangle
count only when every facet supplies exactly three vertex lines); with the
cleanup option off, the returned mesh carries these counts unchanged. -/
theorem C2_welding :
    (∀ (l : STLLoader) (data : List ℕ) (name : String) (s : WeldState),
      l.noDedupe = false → loadBinaryCore l data name = some s →
        s.mesh.vertices.length = (cornerKeys l.mergeTolerance s.corners).dedup.length ∧
        ∀ p ∈ s.corners, ∀ q ∈ s.corners,
          quantizePosition p.1 l.mergeTolerance = quantizePosition q.1 l.mergeTolerance →
            p.2 = q.2) ∧
    (∀ (l : STLLoader) (data : List ℕ) (name : String) (st : AsciiState),
      l.noDedupe = false → loadASCIICore l data name = .ok st →
        st.weld.mesh.vertices.length =
          (cornerKeys l.mergeTolerance st.weld.corners).dedup.length ∧
        ∀ p ∈ st.weld.corners, ∀ q ∈ st.weld.corners,
          quantizePosition p.1 l.mergeTolerance = quantizePosition q.1 l.mergeTolerance →
            p.2 = q.2) ∧
    (∀ (l : STLLoader) (data : List ℕ) (name : String) (s : WeldState),
      l.noDedupe = true → loadBinaryCore l data name = some s →
        s.mesh.vertices.length = s.corners.length ∧
        s.corners.length = 3 * s.mesh.faces.length) ∧
    (∀ (l : STLLoader) (data : List ℕ) (name : String) (st : AsciiState),
      l.noDedupe = true → loadASCIICore l data name = .ok st →
        st.weld.mesh.vertices.length = st.weld.corners.length) ∧
    (∀ (l : STLLoader) (data : List ℕ) (name : String) (m : Mesh),
      l.cleanOpt = false → loadBinary l data name = .ok m →
        ∃ s, loadBinaryCore l data name = some s ∧
          m.vertices.length = s.mesh.vertices.length ∧
          m.faces.length = s.mesh.faces.length) ∧
    (∀ (l : STLLoader) (data : List ℕ) (name : String) (m : Mesh),
      l.cleanOpt = false → loadASCII l data name = .ok m →
        ∃ st, loadASCIICore l data name = .ok st ∧
          m.vertices.length = st.weld.mesh.vertices.length ∧
          m.faces.length = st.weld.mesh.faces.length) := by
  refine ⟨?_, ?_, ?_, ?_, ?_, ?_⟩
  · intro l data name s hnd hc
    unfold loadBinaryCore at hc
    have hinv : WeldedInv l.mergeTolerance s :=
      binLoop_pres (fun off t ht => binRecord_weldedInv hnd data off ht) _ _ _ _ hc
        (initWeld_weldedInv l.mergeTolerance name)
    exact ⟨weldedInv_count hinv, weldedInv_shared hinv⟩
  · intro l data name st hnd hc
    unfold loadASCIICore at hc
    have hinv : WeldedInv l.mergeTolerance st.weld :=
      asciiRun_pres (fun t n line t2 hs hP => asciiStep_weldedInv hnd hs hP)
        _ _ _ _ hc (initWeld_weldedInv l.mergeTolerance name)
    exact ⟨weldedInv_count hinv, weldedInv_shared hinv⟩
  · intro l data name s hnd hc
    unfold loadBinaryCore at hc
    constructor
    · exact binLoop_pres (fun off t ht => binRecord_noDedupeLen hnd data off ht)
        _ _ _ _ hc (initWeld_noDedupeLen name)
    · exact (binLoop_pres (fun off t ht => binRecord_cornerFaceInv l data off ht)
        _ _ _ _ hc (initWeld_cornerFaceInv name)).1
  · intro l data name st hnd hc
    unfold loadASCIICore at hc
    exact asciiRun_pres (fun t n line t2 hs hP => asciiStep_noDedupeLen hnd hs hP)
      _ _ _ _ hc (initWeld_noDedupeLen name)
  · intro l data name m hcl h
    unfold loadBinary at h
    by_cases h84 : data.length < 84
    · rw [if_pos h84] at h
      cases h
    rw [if_neg h84] at h
    dsimp only at h
    by_cases htr : data.length % 2 ^ 32 < (84 + leU32 data 80 * 50) % 2 ^ 32
    · rw [if_pos htr] at h
      cases h
    rw [if_neg htr] at h
    cases hcr : loadBinaryCore l data name with
    | none =>
        rw [hcr] at h
        cases h
    | some s =>
        rw [hcr] at h
        cases h
        refine ⟨s, rfl, (finishMesh_counts hcl s.mesh).1, ?_⟩
        rw [(finishMesh_counts hcl s.mesh).2]
  · intro l data name m hcl h
    unfold loadASCII at h
    cases hcr : loadASCIICore l data name with
    | error e =>
        rw [hcr] at h
        cases h
    | ok st =>
        rw [hcr] at h
        cases h
        refine ⟨st, rfl, (finishMesh_counts hcl st.weld.mesh).1, ?_⟩
        rw [(finishMesh_counts hcl st.weld.mesh).2]

/-- Witness for C2 at the one-triangle binary buffer with zero positions:
the three corners share one key, so one vertex is loaded. -/
theorem C2_welding_witness :
    wS.mesh.vertices.length = (cornerKeys 0 wS.corners).dedup.length ∧
    wS.mesh.vertices.length = 1 ∧ wS.corners.length = 3 := by
  refine ⟨?_, by with_unfolding_all decide, by with_unfolding_all decide⟩
  exact (C2_welding.1 defaultLoader binOne "t" wS rfl
    (by with_unfolding_all rfl)).1

/-- Counterexample for C2 as stated: an ASCII facet with four vertex
directives under NoDedupe loads four vertices for one face, so the loaded
vertex count is not 3 × the triangle count. -/
theorem C2_counterexample :
    loadedVCount (loadBytes noDedupeLoader ascii4buf "f") = some 4 ∧
    loadedFCount (loadBytes noDedupeLoader ascii4buf "f") = some 1 ∧
    loadedVCount (loadBytes noDedupeLoader ascii4buf "f") ≠ some (3 * 1) := by
  refine ⟨?_, ?_, ?_⟩ <;> with_unfolding_all decide

/-- C3. Winding reversal: the binary decoder satisfies the corner-to-face
correspondence — every face j stores the indices assigned to its record
corners in the order first, third, second — and in the text decoder an
endfacet line with at least three collected vertex indices appends the face
[i0, i2, i1], while each vertex line appends the index assigned by
weldVertex to the end of the collected list in source order. -/
theorem C3_winding :
    (∀ (l : STLLoader) (data : List ℕ) (name : String) (s : WeldState),
      loadBinaryCore l data name = some s → cornerFaceInv s) ∧
    (∀ (l : STLLoader) (st : AsciiState) (n : ℕ) (line : List ℕ)
        (st2 : AsciiState) (f0 : List ℕ) (rest : List (List ℕ)),
      asciiStep l st n line = .ok st2 → fieldsAux line [] = f0 :: rest →
        f0.map lowerByte = endfacetTok → 3 ≤ st.faceVerts.length →
          st2.weld.mesh.faces = st.weld.mesh.faces ++
            [⟨(st.faceVerts.getD 0 0 : ℤ), (st.faceVerts.getD 2 0 : ℤ),
              (st.faceVerts.getD 1 0 : ℤ), -1⟩]) ∧
    (∀ (l : STLLoader) (st : AsciiState) (n : ℕ) (line : List ℕ)
        (st2 : AsciiState) (f0 : List ℕ) (rest : List (List ℕ)),
      asciiStep l st n line = .ok st2 → fieldsAux line [] = f0 :: rest →
        f0.map lowerByte = vertexTok →
          ∃ p, st2.weld = (weldVertex l st.weld p st.currentNormal).1 ∧
            st2.faceVerts =
              st.faceVerts ++ [(weldVertex l st.weld p st.currentNormal).2] ∧
            st2.weld.corners =
              st.weld.corners ++ [(p, (weldVertex l st.weld p st.currentNormal).2)]) := by
  refine ⟨?_, ?_, ?_⟩
  · intro l data name s hc
    unfold loadBinaryCore at hc
    exact binLoop_pres (fun off t ht => binRecord_cornerFaceInv l data off ht)
      _ _ _ _ hc (initWeld_cornerFaceInv name)
  · intro l st n line st2 f0 rest hstep hfields htok hlen
    unfold asciiStep at hstep
    split at hstep
    · rename_i heq
      rw [hfields] at heq
      cases heq
    · rename_i g0 grest heq
      rw [hfields] at heq
      injection heq with he1 he2
      subst he1
      subst he2
      dsimp only at hstep
      rw [if_neg (by rw [htok]; decide)] at hstep
      rw [if_neg (by rw [htok]; decide)] at hstep
      rw [if_neg (by rw [htok]; decide)] at hstep
      rw [if_neg (by rw [htok]; decide)] at hstep
      rw [if_neg (by rw [htok]; decide)] at hstep
      rw [if_pos htok] at hstep
      rw [if_pos hlen] at hstep
      cases hstep
      rfl
  · intro l st n line st2 f0 rest hstep hfields htok
    unfold asciiStep at hstep
    split at hstep
    · rename_i heq
      rw [hfields] at heq
      cases heq
    · rename_i g0 grest heq
      rw [hfields] at heq
      injection heq with he1 he2
      subst he1
      subst he2
      dsimp only at hstep
      rw [if_neg (by rw [htok]; decide)] at hstep
      rw [if_neg (by rw [htok]; decide)] at hstep
      rw [if_neg (by rw [htok]; decide)] at hstep
      rw [if_pos htok] at hstep
      by_cases h7 : ¬st.inFacet ∨ ¬st.inLoop
      · rw [if_pos h7] at hstep
        cases hstep
      · rw [if_neg h7] at hstep
        by_cases h8 : rest.length < 3
        · rw [if_pos h8] at hstep
          cases hstep
        · rw [if_neg h8] at hstep
          cases hq1 : parseFloatQ (rest.getD 0 []) with
          | none => rw [hq1] at hstep; cases hstep
          | some x =>
            rw [hq1] at hstep
            cases hq2 : parseFloatQ (rest.getD 1 []) with
            | none => rw [hq2] at hstep; cases hstep
            | some y =>
              rw [hq2] at hstep
              cases hq3 : parseFloatQ (rest.getD 2 []) with
              | none => rw [hq3] at hstep; cases hstep
              | some z =>
                rw [hq3] at hstep
                cases hstep
                exact ⟨Vec3.mk x y z, rfl, rfl,
                  weldVertex_corners l st.weld (Vec3.mk x y z) st.currentNormal⟩

/-- Witness for C3 at the one-triangle binary buffer: its welded state
satisfies the corner-to-face correspondence. -/
theorem C3_winding_witness : cornerFaceInv wS :=
  C3_winding.1 defaultLoader binOne "t" wS (by with_unfolding_all rfl)

theorem isBinarySTL_short (data : List ℕ) (h : data.length < 84) :
    isBinarySTL data = false := by
  unfold isBinarySTL
  rw [if_pos h]

theorem finishMesh_newMesh (l : STLLoader) (name : String) :
    finishMesh l (newMesh name) = newMesh name := by
  rcases l with ⟨s, nd, c, t⟩
  cases s <;> cases nd <;> cases c <;> rfl

/-- A line whose first field lowercases to no recognized directive (or that
has no fields at all) leaves the machine state unchanged. -/
theorem asciiStep_skip {l : STLLoader} {st : AsciiState} {n : ℕ} {line : List ℕ}
    (h : recognizedTok (((fieldsAux line []).headD []).map lowerByte) = false) :
    asciiStep l st n line = .ok st := by
  unfold asciiStep
  cases hf : fieldsAux line [] with
  | nil =>
      rfl
  | cons f0 rest =>
      rw [hf] at h
      simp only [List.headD] at h
      simp only [recognizedTok, Bool.or_eq_false_iff, decide_eq_false_iff_not] at h
      obtain ⟨⟨⟨⟨⟨⟨h1, h2⟩, h3⟩, h4⟩, h5⟩, h6⟩, h7⟩ := h
      dsimp only
      rw [if_neg h1, if_neg h2, if_neg h3, if_neg h4, if_neg h5, if_neg h6, if_neg h7]

theorem asciiRun_skip {l : STLLoader} :
    ∀ (ls : List (List ℕ)),
      (∀ line ∈ ls,
        recognizedTok (((fieldsAux line []).headD []).map lowerByte) = false) →
      ∀ (n : ℕ) (st : AsciiState), asciiRun l ls n st = .ok st := by
  intro ls
  induction ls with
  | nil =>
      intro _ n st
      rfl
  | cons a t ih =>
      intro h n st
      unfold asciiRun
      rw [asciiStep_skip (h a (List.mem_cons_self a t))]
      exact ih (fun x hx => h x (List.mem_cons_of_mem a hx)) (n + 1) st

/-- C10 as amended. Every buffer shorter than 84 bytes is routed to the
text decoder (which can still fail, e.g. on a vertex line outside a
facet-loop); the empty buffer, and any sub-84-byte buffer of ASCII bytes
(each byte below 128, where the byte-level field splitting provably matches
strings.Fields; Go additionally splits on multi-byte Unicode whitespace,
which the model does not decode) all of whose nonblank lines begin with an
unrecognized directive, load successfully as the fresh mesh of the given
name, which has no vertices, no faces, and both bounds at the zero
vector. -/
theorem C10_short_buffers :
    (∀ (l : STLLoader) (data : List ℕ) (name : String),
      data.length < 84 → loadBytes l data name = loadASCII l data name) ∧
    (∀ (l : STLLoader) (name : String),
      loadBytes l [] name = .ok (newMesh name)) ∧
    (∀ (l : STLLoader) (data : List ℕ) (name : String),
      data.length < 84 →
      (∀ b ∈ data, b < 128) →
      (∀ line ∈ linesOf data,
        recognizedTok (((fieldsAux line []).headD []).map lowerByte) = false) →
      loadBytes l data name = .ok (newMesh name)) ∧
    (∀ name, (newMesh name).vertices = [] ∧ (newMesh name).faces = [] ∧
      (newMesh name).boundsMin = Vec3.zero ∧ (newMesh name).boundsMax = Vec3.zero) := by
  have hskip : ∀ (l : STLLoader) (data : List ℕ) (name : String),
      data.length < 84 →
      (∀ b ∈ data, b < 128) →
      (∀ line ∈ linesOf data,
        recognizedTok (((fieldsAux line []).headD []).map lowerByte) = false) →
      loadBytes l data name = .ok (newMesh name) := by
    intro l data name h hascii hlines
    unfold loadBytes
    rw [if_neg (by simp [isBinarySTL_short data h])]
    unfold loadASCII loadASCIICore
    rw [asciiRun_skip (linesOf data) hlines 1 (initAscii name)]
    dsimp only
    simp only [initAscii, initWeld]
    rw [finishMesh_newMesh l name]
  refine ⟨?_, ?_, hskip, ?_⟩
  · intro l data name h
    unfold loadBytes
    rw [if_neg (by simp [isBinarySTL_short data h])]
  · intro l name
    refine hskip l [] name (by decide) ?_ ?_
    · intro b hb
      cases hb
    · intro line hl
      have hnil : linesOf ([] : List ℕ) = [] := rfl
      rw [hnil] at hl
      cases hl
  · intro name
    exact ⟨rfl, rfl, rfl, rfl⟩

/-- Witness for C10: a 25-byte buffer of ASCII bytes holding two
unrecognized lines loads as the empty fresh mesh. -/
theorem C10_short_buffers_witness :
    loadBytes defaultLoader c10unknown "f" = .ok (newMesh "f") ∧
    c10unknown.length < 84 :=
  ⟨C10_short_buffers.2.2.1 defaultLoader c10unknown "f" (by decide)
      (by with_unfolding_all decide) (by with_unfolding_all decide),
    by decide⟩

/-- Counterexample for C10 as stated: a sub-84-byte buffer whose only line
is a vertex directive makes LoadBytes fail with the line-1 error. -/
theorem C10_counterexample :
    c10buf.length < 84 ∧
    loadBytes defaultLoader c10buf "f" =
      .err (.lineErr 1 "vertex outside facet-loop") :=
  ⟨by decide, by with_unfolding_all rfl⟩

end Trophy
